import Mathlib

/-!
Verification development for the ontology_processor repository.

The definitions below are a shallow embedding of the Python sources:
 - `src/src/app/question.py`               (question patterns and parsing)
 - `src/src/ontology_processor/domain/traversal_service.py`   (bounded BFS)
 - `src/src/ontology_processor/domain/reasoning_service.py`   (reasoners)
 - `src/src/ontology_processor/domain/reasoning_coordinator.py`
 - `src/src/ontology_processor/domain/orchestrator.py`
 - `src/src/ontology_processor/domain/service_factory.py`     (strategy registry)

Collaborator classes referenced by the domain code but absent from the
repository sources (StorageService, EntityValidator, QueryCacheService,
the models module, and the question renderer used in the round-trip
property) are modelled from the specification; each such definition says
so in its doc comment.

Conventions: entities are Lean `String`s (identity is string equality,
as in the source).  The graph store snapshot is a `List Edge`; the
storage lookups filter this list, preserving order, exactly as the
in-memory adapter in `src/src/data/storage.py` filters its edge list.
Wall-clock time is not observable in a pure model: the per-iteration
timeout check `time.time() - start_time > context.timeout_seconds` is
modelled by a boolean oracle indexed by the number of completed dequeue
events, and the execution_time_ms metric is fixed at 0.
-/

/-- QuestionResult enum from the (missing) models module; closed
enumeration per the spec: {YES, NO, DONT_KNOW}. -/
inductive QuestionResult
  | YES
  | NO
  | DONT_KNOW
deriving DecidableEq

/-- EdgeType enum per the spec's closed enumeration. -/
inductive EdgeType
  | SUBCLASS_OF
  | INSTANCE_OF
  | HAS_ATTRIBUTE
  | MUTUALLY_EXCLUSIVE
deriving DecidableEq

/-- QuestionType enum from `src/src/app/question.py` (three members, in
declaration order SUBCLASS_OF, INSTANCE_OF, HAS_ATTRIBUTE; the parser
tries the patterns in this order). -/
inductive QuestionType
  | SUBCLASS_OF
  | INSTANCE_OF
  | HAS_ATTRIBUTE
deriving DecidableEq

/-- Edge record from `graph_models.py` / the models module: an
(edge_type, head_entity, tail_entity) triple.  Confidence and metadata
are not consulted by any reasoning code and are omitted. -/
structure Edge where
  edge_type : EdgeType
  head_entity : String
  tail_entity : String
deriving DecidableEq

/-- The graph store snapshot: the list of stored edges.  Lookup filters
preserve list order, matching `InMemoryAdapter.retrieve_edges`. -/
abbrev Graph := List Edge

/-- StorageService.get_relationships_by_head.  Modelled from the spec:
the StorageService class itself is not in src; `outgoing(head)` returns
all edges with this head, in store order. -/
def get_relationships_by_head (g : Graph) (h : String) : List Edge :=
  g.filter (fun e => e.head_entity == h)

/-- StorageService.get_relationships_by_tail.  Modelled from the spec:
`incoming(tail)` returns all edges with this tail, in store order. -/
def get_relationships_by_tail (g : Graph) (t : String) : List Edge :=
  g.filter (fun e => e.tail_entity == t)

/-- Modelled from the spec: `has_entity(name)` of the Graph Store is
true iff name appears as any head or tail. -/
def has_entity (g : Graph) (x : String) : Bool :=
  g.any (fun e => e.head_entity == x || e.tail_entity == x)

/-- Modelled from the spec: EntityValidator.entities_exist returns true
iff both endpoints are known to the Graph Store. -/
def entities_exist (g : Graph) (h t : String) : Bool :=
  has_entity g h && has_entity g t

/-- ExecutionContext from the (missing) models module: bounded traversal
knobs.  `timeoutAt n` models whether the wall-clock check observed
expiry at the iteration that follows `n` completed dequeues. -/
structure ExecutionContext where
  max_depth : Nat
  timeoutAt : Nat → Bool

/-- The context the ReasoningCoordinator builds for each query.
Modelled from the spec: max_depth defaults to 64; the 5-second wall
clock timeout is modelled as never observed in the pure model. -/
def defaultCtx : ExecutionContext :=
  { max_depth := 64, timeoutAt := fun _ => false }

/-- QueryMetrics from the (missing) models module.  execution_time_ms
is wall-clock and fixed at 0 in the model; depth_reached defaults to 0
for the constructions in reasoning_service.py that omit it. -/
structure QueryMetrics where
  execution_time_ms : Nat := 0
  entities_visited : Nat
  cache_hit : Bool
  depth_reached : Nat := 0
deriving DecidableEq

/-- Question triple as used by the domain code (request_id and
raw_question carry no semantics and are omitted). -/
structure Question where
  question_type : QuestionType
  head : String
  tail : String
deriving DecidableEq

/-- QueryResult as constructed by orchestrator.py and
reasoning_coordinator.py.  Confidence is one of 0, 0.95, 1.0; modelled
as a rational.  execution_time_ms/request_id omitted (wall clock /
opaque). -/
structure QueryResult where
  result : QuestionResult
  confidence : ℚ
  entities_visited : Nat
  cache_hit : Bool := false
  explanation : Option String := none

/-! ## Question parsing (`src/src/app/question.py`)

`Question.from_string` tries, in enum order, the three compiled
patterns

  SUBCLASS_OF   : `is (.*) a type of (.*)\?`
  INSTANCE_OF   : `is (.*) (?:a|an) (.*)\?`
  HAS_ATTRIBUTE : `is (.*) considered to be (.*)\?`

with `fullmatch`.  Python's `.` matches any character except a newline
(no DOTALL flag is set), and every literal piece of the three patterns
is newline-free, so a string containing a newline anywhere matches none
of the patterns; on newline-free strings a fullmatch exists iff the
string is `"is " ++ g1 ++ sep ++ g2 ++ "?"` for the pattern's literal
separator, and the greedy first group makes `g1` the longest such
prefix, i.e. the separator occurrence chosen is the last one.  (For
the INSTANCE_OF pattern the alternation `(?:a|an)` between two literal
spaces is deterministic: at a fixed split position at most one of
`" a "`, `" an "` can match, since the character after `" a"` is either
a space or an `n`.)  We model strings as `List Char` here and define
the last-occurrence split by structural recursion. -/

/-- Split `s` as `g1 ++ sep ++ g2` with `g1` longest (the greedy
fullmatch split); `none` when `sep` does not occur in `s`. -/
def lastSplit (sep : List Char) : List Char → Option (List Char × List Char)
  | [] => none
  | c :: cs =>
    match lastSplit sep cs with
    | some (g1, g2) => some (c :: g1, g2)
    | none =>
      if sep.isPrefixOf (c :: cs) then some ([], (c :: cs).drop sep.length)
      else none

/-- Last-occurrence split for the INSTANCE_OF separator, which is the
alternation `" a "` or `" an "` (tried in that order, as in the
regex). -/
def lastSplitInst : List Char → Option (List Char × List Char)
  | [] => none
  | c :: cs =>
    match lastSplitInst cs with
    | some (g1, g2) => some (c :: g1, g2)
    | none =>
      if (" a ".toList).isPrefixOf (c :: cs) then some ([], (c :: cs).drop 3)
      else if (" an ".toList).isPrefixOf (c :: cs) then some ([], (c :: cs).drop 4)
      else none

/-- Greedy fullmatch of `is (.*)<sep>(.*)\?` against `s`: the string
must begin with `"is "`, end with `'?'`, and contain no newline
(Python's `.` cannot match `'\n'`, and no literal piece of the pattern
contains one); the two groups then split the core at the last
occurrence of `sep`. -/
def pyMatch (sep : List Char) (s : List Char) : Option (List Char × List Char) :=
  if ("is ".toList).isPrefixOf s && s.getLast? == some '?' && !s.contains '\n' then
    lastSplit sep ((s.drop 3).dropLast)
  else none

/-- Greedy fullmatch of the INSTANCE_OF pattern `is (.*) (?:a|an) (.*)\?`
(same newline exclusion as `pyMatch`). -/
def pyMatchInst (s : List Char) : Option (List Char × List Char) :=
  if ("is ".toList).isPrefixOf s && s.getLast? == some '?' && !s.contains '\n' then
    lastSplitInst ((s.drop 3).dropLast)
  else none

/-- `Question.from_string`, on character lists: the three patterns are
tried in enum declaration order; the first fullmatch wins; no match is
a parse failure (`QuestionParsingException` in the source, `none`
here). -/
def fromChars (s : List Char) : Option (QuestionType × List Char × List Char) :=
  match pyMatch (" a type of ".toList) s with
  | some (h, t) => some (.SUBCLASS_OF, h, t)
  | none =>
    match pyMatchInst s with
    | some (h, t) => some (.INSTANCE_OF, h, t)
    | none =>
      match pyMatch (" considered to be ".toList) s with
      | some (h, t) => some (.HAS_ATTRIBUTE, h, t)
      | none => none

/-- `Question.from_string` on `String`s; `none` models the raised
`QuestionParsingException`. -/
def Question.from_string (s : String) : Option Question :=
  (fromChars s.toList).map (fun x => ⟨x.1, ⟨x.2.1⟩, ⟨x.2.2⟩⟩)

/-- Modelled from the spec: the surface renderer of a question triple
("formatting to a string" in the parse round-trip property; no renderer
exists in src — the repository's tests build these strings with
f-strings `is {h} a type of {t}?`, `is {h} a {t}?`,
`is {h} considered to be {t}?`). -/
def renderQuestion : QuestionType → List Char → List Char → List Char
  | .SUBCLASS_OF, h, t => "is ".toList ++ h ++ " a type of ".toList ++ t ++ ['?']
  | .INSTANCE_OF, h, t => "is ".toList ++ h ++ " a ".toList ++ t ++ ['?']
  | .HAS_ATTRIBUTE, h, t => "is ".toList ++ h ++ " considered to be ".toList ++ t ++ ['?']

/-! ## Traversal engine (`traversal_service.py`)

`TraversalService.find_path` is a while-loop BFS.  The loop is embedded
as a fuel-indexed recursion `loopAux`; `fuelBound` supplies enough fuel
(proved below: the loop dequeues at most `1 + #distinct tail entities`
times, because every entity joins the visited set the moment it is
enqueued and is never enqueued twice), so the `Option` returned by
`findPathO` is always `some`.  Besides the source's return value and
metrics, the output records which exit fired, the depth of the last
dequeue, and whether the queue was empty at exit; `find_path` projects
these ghosts away. -/

/-- Which exit of the `find_path` loop produced the output. -/
inductive ExitKind
  | found
  | mutex
  | depthBreak
  | timeBreak
  | exhausted
deriving DecidableEq

/-- Output of the `find_path` loop: the QuestionResult, the
entities_visited and depth_reached metrics, and ghost observations of
the exit (`exit`, the depth of the last dequeued node, and whether the
queue was empty when the loop stopped). -/
structure FPOut where
  result : QuestionResult
  entities_visited : Nat
  depth_reached : Nat
  exitKind : ExitKind
  lastDepth : Nat
  queueEmptyAtExit : Bool
deriving DecidableEq

/-- `TraversalService._check_mutual_exclusivity`: some relationship of
type MUTUALLY_EXCLUSIVE points at the target. -/
def check_mutual_exclusivity (relationships : List Edge) (target : String) : Bool :=
  relationships.any (fun r => r.edge_type == .MUTUALLY_EXCLUSIVE && r.tail_entity == target)

/-- `TraversalService._filter_relevant_relationships`: on the first
iteration of an INSTANCE_OF search only INSTANCE_OF edges are accepted;
otherwise only SUBCLASS_OF edges. -/
def filter_relevant_relationships (relationships : List Edge) (edge_type : EdgeType)
    (first_iteration : Bool) : List Edge :=
  if first_iteration && (edge_type == .INSTANCE_OF) then
    relationships.filter (fun r => r.edge_type == .INSTANCE_OF)
  else
    relationships.filter (fun r => r.edge_type == .SUBCLASS_OF)

/-- The `for rel in relevant_rels` body of `find_path`: scan the
accepted edges in order; return `none` the moment a tail equals the
target (the YES exit); otherwise append each unvisited tail to the
queue at depth+1 and mark it visited on the spot. -/
def expand (target : String) (depth : Nat) :
    List Edge → List (String × Nat) → List String → Option (List (String × Nat) × List String)
  | [], queue, visited => some (queue, visited)
  | e :: es, queue, visited =>
    if e.tail_entity = target then none
    else if e.tail_entity ∈ visited then expand target depth es queue visited
    else expand target depth es (queue ++ [(e.tail_entity, depth + 1)]) (e.tail_entity :: visited)

/-- The `while queue:` loop of `find_path`.  Each iteration pops the
front pair `(current, depth)`, counts the pop, breaks on the depth cap
or the timeout oracle, returns NO on a mutual-exclusivity hit, YES on
an accepted edge into the target, and otherwise enqueues the fresh
tails.  On exit the metrics mirror the source:
entities_visited counts pops, and depth_reached is the current `depth`
when the remaining queue is non-empty and `ctx.max_depth` when it is
empty (the YES/NO returns use `depth` unconditionally). -/
def loopAux (g : Graph) (target : String) (edge_type : EdgeType) (ctx : ExecutionContext) :
    Nat → List (String × Nat) → List String → Nat → Bool → Option FPOut
  | _, [], _, popped, _ =>
    some ⟨.DONT_KNOW, popped, ctx.max_depth, .exhausted, 0, true⟩
  | 0, _ :: _, _, _, _ => none
  | fuel + 1, (current, depth) :: rest, visited, popped, first_iteration =>
    if depth > ctx.max_depth then
      some ⟨.DONT_KNOW, popped + 1, if rest.isEmpty then ctx.max_depth else depth,
            .depthBreak, depth, rest.isEmpty⟩
    else if ctx.timeoutAt popped then
      some ⟨.DONT_KNOW, popped + 1, if rest.isEmpty then ctx.max_depth else depth,
            .timeBreak, depth, rest.isEmpty⟩
    else
      let relationships := get_relationships_by_head g current
      if check_mutual_exclusivity relationships target then
        some ⟨.NO, popped + 1, depth, .mutex, depth, rest.isEmpty⟩
      else
        match expand target depth
            (filter_relevant_relationships relationships edge_type first_iteration)
            rest visited with
        | none => some ⟨.YES, popped + 1, depth, .found, depth, rest.isEmpty⟩
        | some (queue', visited') => loopAux g target edge_type ctx fuel queue' visited' (popped + 1) false

/-- Enough fuel for the loop: two units per possible visited entity
plus one (proved sufficient below). -/
def fuelBound (g : Graph) : Nat :=
  2 * (1 + (g.map (·.tail_entity)).dedup.length) + 1

/-- `find_path` with the ghost observations: run the loop from queue
`[(start, 0)]`, visited `{start}`, first_iteration true. -/
def findPathO (g : Graph) (start target : String) (edge_type : EdgeType)
    (ctx : ExecutionContext) : Option FPOut :=
  loopAux g target edge_type ctx (fuelBound g) [(start, 0)] [start] 0 true

/-- `TraversalService.find_path`: result and metrics (the default
`FPOut` is never used — `findPathO` is proved to be `some` for all
inputs below). -/
def find_path (g : Graph) (start target : String) (edge_type : EdgeType)
    (ctx : ExecutionContext) : QuestionResult × QueryMetrics :=
  let o := (findPathO g start target edge_type ctx).getD
    ⟨.DONT_KNOW, 0, ctx.max_depth, .exhausted, 0, true⟩
  (o.result, { entities_visited := o.entities_visited, cache_hit := false,
               depth_reached := o.depth_reached })

/-! ## Reasoners (`reasoning_service.py`) -/

/-- `HierarchyReasoner.reason`: the reflexivity short-circuit (YES for
a SUBCLASS_OF question with head = tail, NO otherwise) followed by
delegation to `find_path` with the corresponding edge type. -/
def hierarchyReason (g : Graph) (q : Question) (ctx : ExecutionContext) :
    QuestionResult × QueryMetrics :=
  if q.head = q.tail then
    (if q.question_type = .SUBCLASS_OF then .YES else .NO,
     { execution_time_ms := 0, entities_visited := 0, cache_hit := false })
  else
    find_path g q.head q.tail
      (if q.question_type = .SUBCLASS_OF then .SUBCLASS_OF else .INSTANCE_OF) ctx

/-- The `for parent in attribute_parents` loop of
`AttributeReasoner.reason`: ask the hierarchy reasoner the SUBCLASS_OF
question (head, parent) for each parent; only YES stops the loop. -/
def attrLoop (g : Graph) (ctx : ExecutionContext) (head : String) :
    List String → Nat → QuestionResult × Nat
  | [], acc => (.DONT_KNOW, acc)
  | p :: ps, acc =>
    let r := hierarchyReason g ⟨.SUBCLASS_OF, head, p⟩ ctx
    let acc' := acc + r.2.entities_visited
    if r.1 = .YES then (.YES, acc') else attrLoop g ctx head ps acc'

/-- `AttributeReasoner.reason`: collect the set of direct holders of
the attribute (heads of HAS_ATTRIBUTE edges into the tail; the Python
set comprehension is modelled by `dedup`), answer YES if the head is
among them, otherwise ask the hierarchy reasoner "is head a type of
parent?" for each parent, returning YES on the first YES and DONT_KNOW
when the loop falls through.  entities_visited starts at 1 (the tail
lookup) and accumulates the sub-query metrics. -/
def attributeReason (g : Graph) (q : Question) (ctx : ExecutionContext) :
    QuestionResult × QueryMetrics :=
  let attribute_relationships := get_relationships_by_tail g q.tail
  let attribute_parents :=
    ((attribute_relationships.filter (fun r => r.edge_type == .HAS_ATTRIBUTE)).map
      (·.head_entity)).dedup
  if q.head ∈ attribute_parents then
    (.YES, { entities_visited := 1, cache_hit := false })
  else
    let r := attrLoop g ctx q.head attribute_parents 1
    (r.1, { entities_visited := r.2, cache_hit := false })

/-- The strategy registry built by `ServiceFactory`: SUBCLASS_OF and
INSTANCE_OF map to the HierarchyReasoner, HAS_ATTRIBUTE to the
AttributeReasoner. -/
def reasonDispatch (g : Graph) (q : Question) (ctx : ExecutionContext) :
    QuestionResult × QueryMetrics :=
  match q.question_type with
  | .SUBCLASS_OF => hierarchyReason g q ctx
  | .INSTANCE_OF => hierarchyReason g q ctx
  | .HAS_ATTRIBUTE => attributeReason g q ctx

/-! ## Coordinator and orchestrator -/

/-- Cache key per the spec: (question_type, head, tail). -/
abbrev CacheKey := QuestionType × String × String

/-- Modelled from the spec: QueryCacheService (not in src) memoizes
question → result; `none` is a miss.  The coordinator's truthiness
test `if cached_result:` is modelled as presence of a cached value. -/
abbrev Cache := CacheKey → Option QuestionResult

/-- The empty cache. -/
def emptyCache : Cache := fun _ => none

/-- Cache write: `cache_result(question, result)`. -/
def cacheInsert (c : Cache) (k : CacheKey) (r : QuestionResult) : Cache :=
  fun k' => if k' = k then some r else c k'

/-- `ReasoningCoordinator.answer_question`: on a cache hit return the
cached result with confidence 1.0, entities_visited 0, cache_hit true;
otherwise dispatch to the registered strategy under a fresh default
ExecutionContext, cache the result, and return it with confidence
0.95 and the strategy's metrics. -/
def answer_question (g : Graph) (c : Cache) (q : Question) : QueryResult × Cache :=
  let key : CacheKey := (q.question_type, q.head, q.tail)
  match c key with
  | some cached =>
    ({ result := cached, confidence := 1, entities_visited := 0, cache_hit := true }, c)
  | none =>
    let r := reasonDispatch g q defaultCtx
    ({ result := r.1, confidence := 95 / 100, entities_visited := r.2.entities_visited,
       cache_hit := r.2.cache_hit }, cacheInsert c key r.1)

/-- `Orchestrator.process_question`: parse, validate, coordinate.  The
source has no try/except around `question_parser.parse`, so a parse
failure (the exception raised by `Question.from_string`) propagates to
the caller; this is the `Except.error` branch.  An unknown entity
yields the DONT_KNOW QueryResult with confidence 0 and an explanation,
without touching the cache. -/
def process_question (g : Graph) (c : Cache) (text : String) :
    Except String (QueryResult × Cache) :=
  match Question.from_string text with
  | none => .error ("Unable to parse question: " ++ text)
  | some q =>
    if entities_exist g q.head q.tail then
      .ok (answer_question g c q)
    else
      .ok ({ result := .DONT_KNOW, confidence := 0, entities_visited := 0,
             explanation := some ("Entities not found: " ++ q.head ++ ", " ++ q.tail) }, c)

/-! ## Reachability along accepted edges

`TReach g et start x` over-approximates the set of entities the
`find_path` loop can ever visit when searching with edge type `et`
from `start`: the start itself, one INSTANCE_OF hop out of the start
when the search is an INSTANCE_OF search (first iteration), and
SUBCLASS_OF edges from anything already reached. -/
inductive TReach (g : Graph) (et : EdgeType) (start : String) : String → Prop
  | refl : TReach g et start start
  | firstHop (e : Edge) : e ∈ g → et = .INSTANCE_OF → e.edge_type = .INSTANCE_OF →
      e.head_entity = start → TReach g et start e.tail_entity
  | step (y : String) (e : Edge) : TReach g et start y → e ∈ g →
      e.edge_type = .SUBCLASS_OF → e.head_entity = y → TReach g et start e.tail_entity

/-- The entities that can ever sit in the BFS queue: the start plus the
tail of any stored edge. -/
def nodeUniverse (g : Graph) (start : String) : List String :=
  start :: g.map (·.tail_entity)

/-- A walk along SUBCLASS_OF edges whose nodes after the start avoid
the list `avoid`; the length counts edges.  `SubWalk g [] z y m` is a
plain SUBCLASS_OF walk of length `m`, the claim's "reachable by
following SUBCLASS_OF edges" with an explicit hop count. -/
inductive SubWalk (g : Graph) (avoid : List String) : String → String → Nat → Prop
  | refl (x : String) : SubWalk g avoid x x 0
  | cons (e : Edge) {y : String} {m : Nat} : e ∈ g → e.edge_type = .SUBCLASS_OF →
      e.tail_entity ∉ avoid → SubWalk g avoid e.tail_entity y m →
      SubWalk g avoid e.head_entity y (m + 1)

/-- The conditions under which the parse round trip can succeed: the
head and tail contain no newline (the patterns' `.` cannot capture
one), no separator of an earlier-tried pattern occurs in the rendered
core, and the separator the renderer inserted is the last separator
occurrence of its own pattern. -/
@[reducible] def RoundtripSafe : QuestionType → List Char → List Char → Prop
  | .SUBCLASS_OF, h, t =>
      '\n' ∉ h ∧ '\n' ∉ t ∧
      ¬ (" a type of ".toList <:+: ("a type of ".toList ++ t))
  | .INSTANCE_OF, h, t =>
      '\n' ∉ h ∧ '\n' ∉ t ∧
      ¬ (" a type of ".toList <:+: (h ++ (" a ".toList ++ t))) ∧
      ¬ (" a ".toList <:+: ("a ".toList ++ t)) ∧
      ¬ (" an ".toList <:+: ("a ".toList ++ t))
  | .HAS_ATTRIBUTE, h, t =>
      '\n' ∉ h ∧ '\n' ∉ t ∧
      ¬ (" a type of ".toList <:+: (h ++ (" considered to be ".toList ++ t))) ∧
      ¬ (" a ".toList <:+: (h ++ (" considered to be ".toList ++ t))) ∧
      ¬ (" an ".toList <:+: (h ++ (" considered to be ".toList ++ t))) ∧
      ¬ (" considered to be ".toList <:+: ("considered to be ".toList ++ t))

/-- The two-edge graph used to witness `mutex_descendant_no`:
d SUBCLASS_OF a, a MUTUALLY_EXCLUSIVE b. -/
def mutexWitnessGraph : Graph :=
  [⟨.SUBCLASS_OF, "d", "a"⟩, ⟨.MUTUALLY_EXCLUSIVE, "a", "b"⟩]

example : fromChars ("is dog a type of animal?".toList) =
    some (.SUBCLASS_OF, "dog".toList, "animal".toList) := by decide

example : fromChars ("is Ginger an animal?".toList) =
    some (.INSTANCE_OF, "Ginger".toList, "animal".toList) := by decide

example : fromChars ("is hemlock considered to be poisonous?".toList) =
    some (.HAS_ATTRIBUTE, "hemlock".toList, "poisonous".toList) := by decide

example : fromChars ("how are pufferfish and fish related?".toList) = none := by decide

example : fromChars ("is a\nb a type of c?".toList) = none := by decide

example : fromChars (renderQuestion .INSTANCE_OF "x".toList "type of y".toList) =
    some (.SUBCLASS_OF, "x".toList, "y".toList) := by decide

example :
    (find_path [⟨.SUBCLASS_OF, "dog", "animal"⟩] "dog" "animal" .SUBCLASS_OF defaultCtx).1
      = .YES := by decide

example :
    (find_path [⟨.SUBCLASS_OF, "dog", "animal"⟩] "dog" "plant" .SUBCLASS_OF defaultCtx).1
      = .DONT_KNOW := by decide

example :
    (find_path [⟨.SUBCLASS_OF, "dog", "animal"⟩, ⟨.MUTUALLY_EXCLUSIVE, "animal", "plant"⟩]
      "dog" "plant" .SUBCLASS_OF defaultCtx).1 = .NO := by decide

/-- Visited lists stay bounded: a duplicate-free list included in `u`
is no longer than `u.dedup`. -/
lemma length_le_dedup {v u : List String} (hn : v.Nodup) (hs : ∀ x ∈ v, x ∈ u) :
    v.length ≤ u.dedup.length :=
  (List.subperm_of_subset hn fun x hx => List.mem_dedup.2 (hs x hx)).length_le

/-! ### Properties of one expansion step -/

lemma expand_some_subset {t : String} {d : Nat} {es : List Edge} :
    ∀ {q v q' v'}, expand t d es q v = some (q', v') → ∀ x ∈ v, x ∈ v' := by
  induction es with
  | nil =>
    intro q v q' v' h x hx
    simp only [expand, Option.some.injEq, Prod.mk.injEq] at h
    exact h.2 ▸ hx
  | cons e es ih =>
    intro q v q' v' h x hx
    simp only [expand] at h
    split at h
    · exact absurd h (by simp)
    · split at h
      · exact ih h x hx
      · exact ih h x (List.mem_cons_of_mem _ hx)

lemma expand_some_queue_old {t : String} {d : Nat} {es : List Edge} :
    ∀ {q v q' v'}, expand t d es q v = some (q', v') → ∀ p ∈ q, p ∈ q' := by
  induction es with
  | nil =>
    intro q v q' v' h p hp
    simp only [expand, Option.some.injEq, Prod.mk.injEq] at h
    exact h.1 ▸ hp
  | cons e es ih =>
    intro q v q' v' h p hp
    simp only [expand] at h
    split at h
    · exact absurd h (by simp)
    · split at h
      · exact ih h p hp
      · exact ih h p (List.mem_append_left _ hp)

lemma expand_some_nodup {t : String} {d : Nat} {es : List Edge} :
    ∀ {q v q' v'}, expand t d es q v = some (q', v') → v.Nodup → v'.Nodup := by
  induction es with
  | nil =>
    intro q v q' v' h hv
    simp only [expand, Option.some.injEq, Prod.mk.injEq] at h
    exact h.2 ▸ hv
  | cons e es ih =>
    intro q v q' v' h hv
    simp only [expand] at h
    split at h
    · exact absurd h (by simp)
    · rename_i hne
      split at h
      · exact ih h hv
      · rename_i hnm
        exact ih h (List.nodup_cons.2 ⟨hnm, hv⟩)

lemma expand_some_length {t : String} {d : Nat} {es : List Edge} :
    ∀ {q v q' v'}, expand t d es q v = some (q', v') →
      q'.length + v.length = q.length + v'.length := by
  induction es with
  | nil =>
    intro q v q' v' h
    simp only [expand, Option.some.injEq, Prod.mk.injEq] at h
    rw [h.1, h.2]
  | cons e es ih =>
    intro q v q' v' h
    simp only [expand] at h
    split at h
    · exact absurd h (by simp)
    · split at h
      · exact ih h
      · have := ih h
        simp only [List.length_append, List.length_cons, List.length_nil] at this
        omega

lemma expand_some_new {t : String} {d : Nat} {es : List Edge} :
    ∀ {q v q' v'}, expand t d es q v = some (q', v') →
      ∀ x ∈ v', x ∈ v ∨ (x ∉ v ∧ (x, d + 1) ∈ q' ∧ ∃ e ∈ es, e.tail_entity = x) := by
  induction es with
  | nil =>
    intro q v q' v' h x hx
    simp only [expand, Option.some.injEq, Prod.mk.injEq] at h
    exact Or.inl (h.2 ▸ hx)
  | cons e es ih =>
    intro q v q' v' h x hx
    simp only [expand] at h
    split at h
    · exact absurd h (by simp)
    · split at h
      · rcases ih h x hx with hv | ⟨hnv, hq, e', he', ht⟩
        · exact Or.inl hv
        · exact Or.inr ⟨hnv, hq, e', List.mem_cons_of_mem _ he', ht⟩
      · rename_i hnm
        rcases ih h x hx with hv | ⟨hnv, hq, e', he', ht⟩
        · rcases List.mem_cons.1 hv with rfl | hv
          · refine Or.inr ⟨hnm, ?_, e, List.mem_cons_self _ _, rfl⟩
            exact expand_some_queue_old h _ (List.mem_append_right _ (List.mem_singleton.2 rfl))
          · exact Or.inl hv
        · have hnv' : x ∉ v := fun hx' => hnv (List.mem_cons_of_mem _ hx')
          exact Or.inr ⟨hnv', hq, e', List.mem_cons_of_mem _ he', ht⟩

lemma expand_some_queue_new {t : String} {d : Nat} {es : List Edge} :
    ∀ {q v q' v'}, expand t d es q v = some (q', v') →
      ∀ p ∈ q', p ∈ q ∨ (p.2 = d + 1 ∧ p.1 ∈ v' ∧ p.1 ∉ v ∧ ∃ e ∈ es, e.tail_entity = p.1) := by
  induction es with
  | nil =>
    intro q v q' v' h p hp
    simp only [expand, Option.some.injEq, Prod.mk.injEq] at h
    exact Or.inl (h.1 ▸ hp)
  | cons e es ih =>
    intro q v q' v' h p hp
    simp only [expand] at h
    split at h
    · exact absurd h (by simp)
    · split at h
      · rcases ih h p hp with hq | ⟨hd, hv', hnv, e', he', ht⟩
        · exact Or.inl hq
        · exact Or.inr ⟨hd, hv', hnv, e', List.mem_cons_of_mem _ he', ht⟩
      · rename_i hnm
        rcases ih h p hp with hq | ⟨hd, hv', hnv, e', he', ht⟩
        · rcases List.mem_append.1 hq with hq | hq
          · exact Or.inl hq
          · rcases List.mem_singleton.1 hq with rfl
            refine Or.inr ⟨rfl, ?_, hnm, e, List.mem_cons_self _ _, rfl⟩
            exact expand_some_subset h _ (List.mem_cons_self _ _)
        · have hnv' : p.1 ∉ v := fun hx' => hnv (List.mem_cons_of_mem _ hx')
          exact Or.inr ⟨hd, hv', hnv', e', List.mem_cons_of_mem _ he', ht⟩

lemma expand_some_scan {t : String} {d : Nat} {es : List Edge} :
    ∀ {q v q' v'}, expand t d es q v = some (q', v') →
      ∀ e ∈ es, e.tail_entity ≠ t ∧ e.tail_entity ∈ v' := by
  induction es with
  | nil => intro q v q' v' h e he; exact absurd he (List.not_mem_nil e)
  | cons e es ih =>
    intro q v q' v' h e' he'
    simp only [expand] at h
    split at h
    · exact absurd h (by simp)
    · rename_i hne
      split at h
      · rename_i hm
        rcases List.mem_cons.1 he' with rfl | he'
        · exact ⟨hne, expand_some_subset h _ hm⟩
        · exact ih h e' he'
      · rcases List.mem_cons.1 he' with rfl | he'
        · exact ⟨hne, expand_some_subset h _ (List.mem_cons_self _ _)⟩
        · exact ih h e' he'

lemma expand_none {t : String} {d : Nat} {es : List Edge} :
    ∀ {q v}, expand t d es q v = none → ∃ e ∈ es, e.tail_entity = t := by
  induction es with
  | nil => intro q v h; exact absurd h (by simp [expand])
  | cons e es ih =>
    intro q v h
    simp only [expand] at h
    split at h
    · exact ⟨e, List.mem_cons_self _ _, by assumption⟩
    · split at h
      · rcases ih h with ⟨e', he', ht⟩
        exact ⟨e', List.mem_cons_of_mem _ he', ht⟩
      · rcases ih h with ⟨e', he', ht⟩
        exact ⟨e', List.mem_cons_of_mem _ he', ht⟩

lemma mem_filter_relevant {rels : List Edge} {et : EdgeType} {fi : Bool} {e : Edge}
    (h : e ∈ filter_relevant_relationships rels et fi) : e ∈ rels := by
  unfold filter_relevant_relationships at h
  split at h <;> exact (List.mem_filter.1 h).1

lemma filter_relevant_types {rels : List Edge} {et : EdgeType} {fi : Bool} {e : Edge}
    (h : e ∈ filter_relevant_relationships rels et fi) :
    (fi = true ∧ et = .INSTANCE_OF ∧ e.edge_type = .INSTANCE_OF) ∨
      e.edge_type = .SUBCLASS_OF := by
  unfold filter_relevant_relationships at h
  split at h
  · rename_i hc
    have hc' : fi = true ∧ et = EdgeType.INSTANCE_OF := by simpa using hc
    exact Or.inl ⟨hc'.1, hc'.2, by simpa using (List.mem_filter.1 h).2⟩
  · exact Or.inr (by simpa using (List.mem_filter.1 h).2)

lemma mem_rels_head {g : Graph} {c : String} {e : Edge}
    (h : e ∈ get_relationships_by_head g c) : e ∈ g ∧ e.head_entity = c := by
  unfold get_relationships_by_head at h
  have h' := List.mem_filter.1 h
  exact ⟨h'.1, by simpa using h'.2⟩

lemma TReach_mem_universe {g : Graph} {et : EdgeType} {start x : String}
    (h : TReach g et start x) : x ∈ nodeUniverse g start := by
  induction h with
  | refl => exact List.mem_cons_self _ _
  | firstHop e he _ _ _ => exact List.mem_cons_of_mem _ (List.mem_map_of_mem _ he)
  | step y e _ he _ _ _ => exact List.mem_cons_of_mem _ (List.mem_map_of_mem _ he)

/-- A duplicate-free list of reachable entities is no longer than the
number of distinct reachable entities. -/
lemma visited_le_reach {g : Graph} {et : EdgeType} {start : String} {v : List String}
    (hn : v.Nodup) (hr : ∀ x ∈ v, TReach g et start x) :
    v.length ≤ {x | TReach g et start x}.ncard := by
  have hfin : {x | TReach g et start x}.Finite := by
    refine Set.Finite.subset (nodeUniverse g start).finite_toSet ?_
    intro x hx
    exact List.mem_toFinset.1 (List.mem_toFinset.2 (TReach_mem_universe hx))
  have hsub : (↑v.toFinset : Set String) ⊆ {x | TReach g et start x} := by
    intro x hx
    exact hr x (List.mem_toFinset.1 hx)
  have h1 : (↑v.toFinset : Set String).ncard ≤ {x | TReach g et start x}.ncard :=
    Set.ncard_le_ncard hsub hfin
  rwa [Set.ncard_coe_Finset, List.card_toFinset, List.Nodup.dedup hn] at h1

lemma dedup_cons_length_le {a : String} {l : List String} :
    (a :: l).dedup.length ≤ 1 + l.dedup.length := by
  by_cases h : a ∈ l
  · rw [List.dedup_cons_of_mem h]; omega
  · rw [List.dedup_cons_of_not_mem h, List.length_cons]; omega

/-- Master totality lemma for the `find_path` loop: from any state
satisfying the visited/queue invariants and with fuel at least the
standard BFS measure, the loop returns (`some`), and the total number
of dequeues is bounded via the number of distinct reachable
entities. -/
lemma loopAux_total (g : Graph) (start target : String) (et : EdgeType)
    (ctx : ExecutionContext) :
    ∀ (fuel : Nat) (q : List (String × Nat)) (v : List String) (popped : Nat) (fi : Bool),
      v.Nodup →
      (∀ x ∈ v, x ∈ nodeUniverse g start) →
      (∀ x ∈ v, TReach g et start x) →
      (fi = true → ∀ x ∈ v, x = start) →
      (∀ p ∈ q, p.1 ∈ v) →
      2 * ((nodeUniverse g start).dedup.length - v.length) + q.length ≤ fuel →
      ∃ r, loopAux g target et ctx fuel q v popped fi = some r ∧
        r.entities_visited ≤ popped + q.length +
          ({x | TReach g et start x}.ncard - v.length) := by
  intro fuel
  induction fuel with
  | zero =>
    intro q v popped fi hn hu hr hfi hq hfuel
    match q with
    | [] => exact ⟨_, rfl, by simp⟩
    | p :: rest => simp [List.length_cons] at hfuel
  | succ fuel ih =>
    intro q v popped fi hn hu hr hfi hq hfuel
    match q with
    | [] => exact ⟨_, rfl, by simp⟩
    | (current, depth) :: rest =>
      have hvlen : v.length ≤ {x | TReach g et start x}.ncard := visited_le_reach hn hr
      simp only [loopAux]
      by_cases hd : depth > ctx.max_depth
      · refine ⟨_, by rw [if_pos hd], ?_⟩
        simp only [FPOut.mk.injEq, List.length_cons]
        omega
      · rw [if_neg hd]
        by_cases ht : ctx.timeoutAt popped
        · refine ⟨_, by rw [if_pos ht], ?_⟩
          simp only [List.length_cons]
          omega
        · rw [if_neg ht]
          by_cases hmx : check_mutual_exclusivity (get_relationships_by_head g current) target
          · refine ⟨_, by rw [if_pos hmx], ?_⟩
            simp only [List.length_cons]
            omega
          · rw [if_neg hmx]
            rcases hexp : expand target depth
                (filter_relevant_relationships (get_relationships_by_head g current) et fi)
                rest v with _ | ⟨q1, v1⟩
            · refine ⟨_, rfl, ?_⟩
              simp only [List.length_cons]
              omega
            · -- recursive case: establish the invariants for the new state
              have hn1 : v1.Nodup := expand_some_nodup hexp hn
              have hsub1 : ∀ x ∈ v, x ∈ v1 := expand_some_subset hexp
              have hcv : current ∈ v := hq _ (List.mem_cons_self _ _)
              have hu1 : ∀ x ∈ v1, x ∈ nodeUniverse g start := by
                intro x hx
                rcases expand_some_new hexp x hx with hv | ⟨_, _, e, he, htl⟩
                · exact hu x hv
                · have heg := (mem_rels_head (mem_filter_relevant he)).1
                  exact htl ▸ List.mem_cons_of_mem _ (List.mem_map_of_mem _ heg)
              have hr1 : ∀ x ∈ v1, TReach g et start x := by
                intro x hx
                rcases expand_some_new hexp x hx with hv | ⟨_, _, e, he, htl⟩
                · exact hr x hv
                · rcases mem_rels_head (mem_filter_relevant he) with ⟨heg, hhd⟩
                  rcases filter_relevant_types he with ⟨hfi', het', hty⟩ | hty
                  · have : current = start := hfi hfi' current hcv
                    exact htl ▸ TReach.firstHop e heg het' hty (hhd.trans this)
                  · exact htl ▸ TReach.step current e (hr current hcv) heg hty hhd
              have hq1 : ∀ p ∈ q1, p.1 ∈ v1 := by
                intro p hp
                rcases expand_some_queue_new hexp p hp with hrest | ⟨_, hv1, _, _⟩
                · exact hsub1 _ (hq p (List.mem_cons_of_mem _ hrest))
                · exact hv1
              have hlen := expand_some_length hexp
              have hvle : v.length ≤ v1.length :=
                (List.subperm_of_subset hn hsub1).length_le
              have hv1B : v1.length ≤ (nodeUniverse g start).dedup.length :=
                length_le_dedup hn1 hu1
              have hv1r : v1.length ≤ {x | TReach g et start x}.ncard :=
                visited_le_reach hn1 hr1
              have hfuel1 :
                  2 * ((nodeUniverse g start).dedup.length - v1.length) + q1.length ≤ fuel := by
                simp only [List.length_cons] at hfuel
                omega
              rcases ih q1 v1 (popped + 1) false hn1 hu1 hr1 (by simp) hq1 hfuel1 with
                ⟨r, hrun, hev⟩
              refine ⟨r, hrun, ?_⟩
              simp only [List.length_cons]
              omega

lemma mem_rels_head_iff {g : Graph} {c : String} {e : Edge} :
    e ∈ get_relationships_by_head g c ↔ e ∈ g ∧ e.head_entity = c := by
  unfold get_relationships_by_head
  simp [List.mem_filter]

lemma filter_relevant_sub {rels : List Edge} {fi : Bool} :
    filter_relevant_relationships rels .SUBCLASS_OF fi =
      rels.filter (fun r => r.edge_type == .SUBCLASS_OF) := by
  unfold filter_relevant_relationships
  simp

/-- One expansion step keeps every visited entity reachable. -/
lemma expand_preserves_reach {g : Graph} {start target : String} {et : EdgeType} {fi : Bool}
    {current : String} {depth : Nat} {rest q1 : List (String × Nat)} {v v1 : List String}
    (hexp : expand target depth
      (filter_relevant_relationships (get_relationships_by_head g current) et fi)
      rest v = some (q1, v1))
    (hr : ∀ x ∈ v, TReach g et start x)
    (hcv : current ∈ v)
    (hstart : fi = true → et = .INSTANCE_OF → current = start) :
    ∀ x ∈ v1, TReach g et start x := by
  intro x hx
  rcases expand_some_new hexp x hx with hv | ⟨_, _, e, he, htl⟩
  · exact hr x hv
  · rcases mem_rels_head (mem_filter_relevant he) with ⟨heg, hhd⟩
    rcases filter_relevant_types he with ⟨hfi', het', hty⟩ | hty
    · exact htl ▸ TReach.firstHop e heg het' hty (hhd.trans (hstart hfi' het'))
    · exact htl ▸ TReach.step current e (hr current hcv) heg hty hhd

/-- One expansion step keeps every queued entity visited. -/
lemma expand_preserves_queue {target : String} {es : List Edge}
    {depth : Nat} {rest q1 : List (String × Nat)} {v v1 : List String}
    (hexp : expand target depth es rest v = some (q1, v1))
    (hq : ∀ p ∈ rest, p.1 ∈ v) :
    ∀ p ∈ q1, p.1 ∈ v1 := by
  intro p hp
  rcases expand_some_queue_new hexp p hp with hrest | ⟨_, hv1, _, _⟩
  · exact expand_some_subset hexp _ (hq p hrest)
  · exact hv1

/-- Soundness of the NO exit: whenever the loop answers NO, some
MUTUALLY_EXCLUSIVE edge into the target hangs off an entity reachable
from the start — NO is never produced by mere absence of a path. -/
lemma loopAux_no_sound (g : Graph) (start target : String) (et : EdgeType)
    (ctx : ExecutionContext) :
    ∀ (fuel : Nat) (q : List (String × Nat)) (v : List String) (popped : Nat) (fi : Bool),
      (∀ x ∈ v, TReach g et start x) →
      (fi = true → ∀ x ∈ v, x = start) →
      (∀ p ∈ q, p.1 ∈ v) →
      ∀ r, loopAux g target et ctx fuel q v popped fi = some r → r.result = .NO →
        ∃ e ∈ g, e.edge_type = .MUTUALLY_EXCLUSIVE ∧ e.tail_entity = target ∧
          TReach g et start e.head_entity := by
  intro fuel
  induction fuel with
  | zero =>
    intro q v popped fi hr hfi hq r hrun hres
    match q with
    | [] =>
      simp only [loopAux] at hrun
      rw [← Option.some.inj hrun] at hres
      simp at hres
    | p :: rest => exact absurd hrun (by simp [loopAux])
  | succ fuel ih =>
    intro q v popped fi hr hfi hq r hrun hres
    match q with
    | [] =>
      simp only [loopAux] at hrun
      rw [← Option.some.inj hrun] at hres
      simp at hres
    | (current, depth) :: rest =>
      simp only [loopAux] at hrun
      by_cases hd : depth > ctx.max_depth
      · rw [if_pos hd] at hrun
        rw [← Option.some.inj hrun] at hres
        simp at hres
      · rw [if_neg hd] at hrun
        by_cases ht : ctx.timeoutAt popped
        · rw [if_pos ht] at hrun
          rw [← Option.some.inj hrun] at hres
          simp at hres
        · rw [if_neg ht] at hrun
          by_cases hmx : check_mutual_exclusivity (get_relationships_by_head g current) target
          · unfold check_mutual_exclusivity at hmx
            rcases List.any_eq_true.1 hmx with ⟨e, he, hprop⟩
            have hprop' : e.edge_type = .MUTUALLY_EXCLUSIVE ∧ e.tail_entity = target := by
              simpa using hprop
            rcases mem_rels_head he with ⟨heg, hhd⟩
            have hcv : current ∈ v := hq _ (List.mem_cons_self _ _)
            exact ⟨e, heg, hprop'.1, hprop'.2, hhd ▸ hr current hcv⟩
          · rw [if_neg hmx] at hrun
            rcases hexp : expand target depth
                (filter_relevant_relationships (get_relationships_by_head g current) et fi)
                rest v with _ | ⟨q1, v1⟩
            · rw [hexp] at hrun
              rw [← Option.some.inj hrun] at hres
              simp at hres
            · rw [hexp] at hrun
              have hcv : current ∈ v := hq _ (List.mem_cons_self _ _)
              have hr1 := expand_preserves_reach hexp hr hcv
                (fun h1 h2 => hfi h1 current hcv)
              have hq1 := expand_preserves_queue hexp
                (fun p hp => hq p (List.mem_cons_of_mem _ hp))
              exact ih q1 v1 (popped + 1) false hr1 (by simp) hq1 r hrun hres

lemma subWalk_zero {g : Graph} {v : List String} {z y : String}
    (h : SubWalk g v z y 0) : z = y := by
  cases h
  rfl

lemma subWalk_succ {g : Graph} {v : List String} {z y : String} {m : Nat}
    (h : SubWalk g v z y (m + 1)) :
    ∃ e ∈ g, e.edge_type = .SUBCLASS_OF ∧ e.head_entity = z ∧ e.tail_entity ∉ v ∧
      SubWalk g v e.tail_entity y m := by
  cases h with
  | cons e he hty hnv htail => exact ⟨e, he, hty, rfl, hnv, htail⟩

/-- Shrink a walk against a grown avoid-list: either the whole walk
already avoids `v1`, or some node on it (after the start) lies in
`v1 \ v` and the walk's remainder from that node avoids `v1`. -/
lemma subWalk_refine {g : Graph} {v v1 : List String} :
    ∀ {z y : String} {m : Nat}, SubWalk g v z y m →
      SubWalk g v1 z y m ∨
        ∃ x j, x ∈ v1 ∧ x ∉ v ∧ SubWalk g v1 x y j ∧ j + 1 ≤ m := by
  intro z y m h
  induction h with
  | refl x => exact Or.inl (SubWalk.refl x)
  | cons e he hty hnv htail ih =>
    rcases ih with h1 | ⟨x, j, hx1, hxv, hwx, hj⟩
    · by_cases hu : e.tail_entity ∈ v1
      · exact Or.inr ⟨e.tail_entity, _, hu, hnv, h1, by omega⟩
      · exact Or.inl (SubWalk.cons e he hty hu h1)
    · exact Or.inr ⟨x, j, hx1, hxv, hwx, by omega⟩

/-- Take the suffix of a walk D → A after the last visit to D: a walk
from D to A that avoids D afterwards, no longer than the original. -/
lemma subWalk_avoid_start {g : Graph} {D A : String} :
    ∀ {m : Nat} {z : String}, SubWalk g [] z A m → A ≠ D →
      ∃ n', n' ≤ m ∧ ((SubWalk g [D] z A n' ∧ z ≠ D) ∨ SubWalk g [D] D A n') := by
  intro m z h
  induction h with
  | refl x => intro hDA; exact ⟨0, le_refl 0, Or.inl ⟨SubWalk.refl x, hDA⟩⟩
  | cons e he hty _ htail ih =>
    intro hDA
    rcases ih hDA with ⟨n'', hle, hcase⟩
    rcases hcase with ⟨hw1, hwD⟩ | hD
    · by_cases hzD : e.head_entity = D
      · subst hzD
        exact ⟨n'' + 1, by omega, Or.inr (SubWalk.cons e he hty (by simp [hwD]) hw1)⟩
      · exact ⟨n'' + 1, by omega,
          Or.inl ⟨SubWalk.cons e he hty (by simp [hwD]) hw1, hzD⟩⟩
    · exact ⟨n'', by omega, Or.inr hD⟩

/-- The fresh queue entries produced by one expansion step all sit at
the end of the queue, at the current depth plus one. -/
lemma expand_some_structure {t : String} {d : Nat} {es : List Edge} :
    ∀ {q v q' v'}, expand t d es q v = some (q', v') →
      ∃ news : List (String × Nat), q' = q ++ news ∧ ∀ p ∈ news, p.2 = d + 1 := by
  induction es with
  | nil =>
    intro q v q' v' h
    simp only [expand, Option.some.injEq, Prod.mk.injEq] at h
    exact ⟨[], by simp [h.1.symm], by simp⟩
  | cons e es ih =>
    intro q v q' v' h
    simp only [expand] at h
    split at h
    · exact absurd h (by simp)
    · split at h
      · exact ih h
      · rcases ih h with ⟨news, hq, hd⟩
        refine ⟨(e.tail_entity, d + 1) :: news, ?_, ?_⟩
        · rw [hq, List.append_assoc]
          rfl
        · intro p hp
          rcases List.mem_cons.1 hp with rfl | hp
          · rfl
          · exact hd p hp

lemma pairwise_of_const_snd (d : Nat) :
    ∀ l : List (String × Nat), (∀ p ∈ l, p.2 = d) →
      List.Pairwise (fun p p' : String × Nat => p.2 ≤ p'.2) l := by
  intro l
  induction l with
  | nil => intro _; exact List.Pairwise.nil
  | cons a l ih =>
    intro h
    refine List.pairwise_cons.2 ⟨?_, ih (fun p hp => h p (List.mem_cons_of_mem _ hp))⟩
    intro p hp
    rw [h a (List.mem_cons_self _ _), h p (List.mem_cons_of_mem _ hp)]

/-- One step of re-establishing the A-pending certificate: from a
queue entry that reaches A by a walk avoiding the old visited list,
conclude that A itself is queued within budget or some queue entry
reaches A by a walk avoiding the new visited list — using that every
newly visited entity was enqueued at depth + 1. -/
lemma pend_step {g : Graph} {A : String} {n depth : Nat}
    {v v1 : List String} {q1 : List (String × Nat)}
    (hfresh : ∀ x, x ∈ v1 → x ∉ v → (x, depth + 1) ∈ q1)
    {z : String} {dz m : Nat}
    (hz : (z, dz) ∈ q1) (hw : SubWalk g v z A m) (hm : 1 ≤ m)
    (hbound : dz + m ≤ n) (hdz : depth ≤ dz) :
    (∃ dA, (A, dA) ∈ q1 ∧ dA ≤ n) ∨
      (∃ p ∈ q1, ∃ m', 1 ≤ m' ∧ SubWalk g v1 p.1 A m' ∧ p.2 + m' ≤ n) := by
  rcases subWalk_refine hw with h1 | ⟨x, j, hx1, hxv, hwx, hj⟩
  · exact Or.inr ⟨(z, dz), hz, m, hm, h1, hbound⟩
  · have hentry := hfresh x hx1 hxv
    cases j with
    | zero =>
      have hxA : x = A := subWalk_zero hwx
      exact Or.inl ⟨depth + 1, hxA ▸ hentry, by omega⟩
    | succ j' =>
      exact Or.inr ⟨(x, depth + 1), hentry, j' + 1, by omega, hwx, by omega⟩

/-- Completeness of the NO exit for a SUBCLASS_OF search: if some
MUTUALLY_EXCLUSIVE edge (A, B) exists, no SUBCLASS_OF path from D
reaches B itself, and the timeout never fires, then from any state
whose queue certifies that A is pending within the depth budget `n`
(`n ≤ max_depth`) — A queued at depth ≤ n, or reachable from a queue
entry by a walk through unvisited entities within the budget — the
loop necessarily answers NO: BFS dequeues in nondecreasing depth
order, so A is dequeued (and its mutex check fires) before the depth
cap can break the loop. -/
lemma loopAux_no_complete (g : Graph) (D A B : String) (ctx : ExecutionContext) (n : Nat)
    (hME : (⟨.MUTUALLY_EXCLUSIVE, A, B⟩ : Edge) ∈ g)
    (hnB : ¬ TReach g .SUBCLASS_OF D B)
    (htmo : ∀ k, ctx.timeoutAt k = false)
    (hn : n ≤ ctx.max_depth) :
    ∀ (fuel : Nat) (q : List (String × Nat)) (v : List String) (popped : Nat) (fi : Bool),
      v.Nodup →
      (∀ x ∈ v, x ∈ nodeUniverse g D) →
      (∀ x ∈ v, TReach g .SUBCLASS_OF D x) →
      (∀ p ∈ q, p.1 ∈ v) →
      List.Pairwise (fun p p' : String × Nat => p.2 ≤ p'.2) q →
      (∀ p ∈ q, ∀ p' ∈ q, p.2 ≤ p'.2 + 1) →
      ((∃ dA, (A, dA) ∈ q ∧ dA ≤ n) ∨
        (∃ p ∈ q, ∃ m, 1 ≤ m ∧ SubWalk g v p.1 A m ∧ p.2 + m ≤ n)) →
      2 * ((nodeUniverse g D).dedup.length - v.length) + q.length ≤ fuel →
      ∃ r, loopAux g B .SUBCLASS_OF ctx fuel q v popped fi = some r ∧
        r.result = .NO := by
  intro fuel
  induction fuel with
  | zero =>
    intro q v popped fi hnd hu hr hq hsort hw1 hA hfuel
    match q with
    | [] =>
      exfalso
      rcases hA with ⟨dA, hdA, _⟩ | ⟨p, hp, _, _, _, _⟩
      · exact absurd hdA (List.not_mem_nil _)
      · exact absurd hp (List.not_mem_nil _)
    | p :: rest => simp [List.length_cons] at hfuel
  | succ fuel ih =>
    intro q v popped fi hnd hu hr hq hsort hw1 hA hfuel
    match q with
    | [] =>
      exfalso
      rcases hA with ⟨dA, hdA, _⟩ | ⟨p, hp, _, _, _, _⟩
      · exact absurd hdA (List.not_mem_nil _)
      · exact absurd hp (List.not_mem_nil _)
    | (current, depth) :: rest =>
      have hmin : ∀ p ∈ rest, depth ≤ p.2 := (List.pairwise_cons.1 hsort).1
      have hdep_le : depth ≤ n := by
        rcases hA with ⟨dA, hdA, hdAn⟩ | ⟨p, hp, m, hm1, _, hpm⟩
        · rcases List.mem_cons.1 hdA with heq | hdA
          · have h2 : A = current ∧ dA = depth := by simpa using heq
            omega
          · have h3 : depth ≤ dA := hmin _ hdA
            omega
        · rcases List.mem_cons.1 hp with heq | hp
          · have h2 : depth + m ≤ n := by rw [heq] at hpm; exact hpm
            omega
          · have h3 : depth ≤ p.2 := hmin p hp
            omega
      simp only [loopAux]
      have hd : ¬ depth > ctx.max_depth := by omega
      rw [if_neg hd, htmo popped, if_neg (by simp)]
      by_cases hmx : check_mutual_exclusivity (get_relationships_by_head g current) B
      · exact ⟨_, by rw [if_pos hmx], rfl⟩
      · rw [if_neg hmx]
        have hcurA : current ≠ A := by
          intro hceq
          apply hmx
          unfold check_mutual_exclusivity
          refine List.any_eq_true.2
            ⟨⟨.MUTUALLY_EXCLUSIVE, A, B⟩, mem_rels_head_iff.2 ⟨hME, ?_⟩, by simp⟩
          exact hceq.symm
        rcases hexp : expand B depth
            (filter_relevant_relationships (get_relationships_by_head g current) .SUBCLASS_OF fi)
            rest v with _ | ⟨q1, v1⟩
        · -- a YES exit would exhibit a SUBCLASS_OF path to B
          exfalso
          rcases expand_none hexp with ⟨e, he, htl⟩
          rcases mem_rels_head (mem_filter_relevant he) with ⟨heg, hhd⟩
          rcases filter_relevant_types he with ⟨_, het', _⟩ | hty
          · exact absurd het' (by simp)
          · exact hnB (htl ▸ TReach.step current e
              (hr current (hq _ (List.mem_cons_self _ _))) heg hty hhd)
        · -- recursive case
          have hcv : current ∈ v := hq _ (List.mem_cons_self _ _)
          have hnd1 : v1.Nodup := expand_some_nodup hexp hnd
          have hsub1 : ∀ x ∈ v, x ∈ v1 := expand_some_subset hexp
          have hu1 : ∀ x ∈ v1, x ∈ nodeUniverse g D := by
            intro x hx
            rcases expand_some_new hexp x hx with hv | ⟨_, _, e, he, htl⟩
            · exact hu x hv
            · have heg := (mem_rels_head (mem_filter_relevant he)).1
              exact htl ▸ List.mem_cons_of_mem _ (List.mem_map_of_mem _ heg)
          have hr1 : ∀ x ∈ v1, TReach g .SUBCLASS_OF D x :=
            expand_preserves_reach hexp hr hcv (fun _ h2 => absurd h2 (by simp))
          have hq1 : ∀ p ∈ q1, p.1 ∈ v1 :=
            expand_preserves_queue hexp (fun p hp => hq p (List.mem_cons_of_mem _ hp))
          rcases expand_some_structure hexp with ⟨news, hq1eq, hnews⟩
          have hw1head : ∀ p ∈ rest, p.2 ≤ depth + 1 := fun p hp =>
            hw1 p (List.mem_cons_of_mem _ hp) (current, depth) (List.mem_cons_self _ _)
          have hsort1 : List.Pairwise (fun p p' : String × Nat => p.2 ≤ p'.2) q1 := by
            rw [hq1eq]
            refine List.pairwise_append.2
              ⟨List.Pairwise.of_cons hsort, pairwise_of_const_snd (depth + 1) news hnews, ?_⟩
            intro a ha b hb
            rw [hnews b hb]
            exact hw1head a ha
          have hw1' : ∀ p ∈ q1, ∀ p' ∈ q1, p.2 ≤ p'.2 + 1 := by
            intro p hp p' hp'
            rw [hq1eq] at hp hp'
            rcases List.mem_append.1 hp with hp | hp <;>
              rcases List.mem_append.1 hp' with hp' | hp'
            · exact hw1 p (List.mem_cons_of_mem _ hp) p' (List.mem_cons_of_mem _ hp')
            · rw [hnews p' hp']
              have h3 := hw1head p hp
              omega
            · rw [hnews p hp]
              have h3 : depth ≤ p'.2 := hmin p' hp'
              omega
            · rw [hnews p hp, hnews p' hp']
              omega
          have hfreshq : ∀ x, x ∈ v1 → x ∉ v → (x, depth + 1) ∈ q1 := by
            intro x hx hxv
            rcases expand_some_new hexp x hx with hxv' | ⟨_, hq1x, _, _, _⟩
            · exact absurd hxv' hxv
            · exact hq1x
          have hrest_q1 : ∀ p ∈ rest, p ∈ q1 := fun p hp => expand_some_queue_old hexp p hp
          have hA1 : (∃ dA, (A, dA) ∈ q1 ∧ dA ≤ n) ∨
              (∃ p ∈ q1, ∃ m, 1 ≤ m ∧ SubWalk g v1 p.1 A m ∧ p.2 + m ≤ n) := by
            rcases hA with ⟨dA, hdA, hdAn⟩ | ⟨p, hp, m, hm1, hwalk, hpm⟩
            · rcases List.mem_cons.1 hdA with heq | hdA
              · have h2 : A = current ∧ dA = depth := by simpa using heq
                exact absurd h2.1.symm hcurA
              · exact Or.inl ⟨dA, hrest_q1 _ hdA, hdAn⟩
            · rcases List.mem_cons.1 hp with heq | hp
              · have hwalk' : SubWalk g v current A m := by rw [heq] at hwalk; exact hwalk
                have hpm' : depth + m ≤ n := by rw [heq] at hpm; exact hpm
                rcases m with _ | m'
                · exact absurd hm1 (by omega)
                · rcases subWalk_succ hwalk' with ⟨e1, he1, hty1, hhd1, hnv1, htail1⟩
                  have hrel : e1 ∈ filter_relevant_relationships
                      (get_relationships_by_head g current) .SUBCLASS_OF fi := by
                    rw [filter_relevant_sub]
                    exact List.mem_filter.2 ⟨mem_rels_head_iff.2 ⟨he1, hhd1⟩, by simp [hty1]⟩
                  have hscan := expand_some_scan hexp e1 hrel
                  have hentry : (e1.tail_entity, depth + 1) ∈ q1 := hfreshq _ hscan.2 hnv1
                  rcases m' with _ | m''
                  · have hAe : e1.tail_entity = A := subWalk_zero htail1
                    exact Or.inl ⟨depth + 1, hAe ▸ hentry, by omega⟩
                  · exact pend_step hfreshq hentry htail1 (by omega) (by omega) (by omega)
              · exact pend_step hfreshq (hrest_q1 p hp) hwalk hm1 hpm (hmin p hp)
          have hvle : v.length ≤ v1.length := (List.subperm_of_subset hnd hsub1).length_le
          have hlen := expand_some_length hexp
          have hv1B : v1.length ≤ (nodeUniverse g D).dedup.length := length_le_dedup hnd1 hu1
          have hfuel1 :
              2 * ((nodeUniverse g D).dedup.length - v1.length) + q1.length ≤ fuel := by
            simp only [List.length_cons] at hfuel
            omega
          exact ih q1 v1 (popped + 1) false hnd1 hu1 hr1 hq1 hsort1 hw1' hA1 hfuel1

/-- How the source computes depth_reached, at every exit: the YES/NO
returns use the current depth unconditionally; the metrics block after
a break or after exhaustion uses `depth if queue else ctx.max_depth`,
i.e. the last dequeued depth when the remaining queue is non-empty and
`ctx.max_depth` when it is empty (always so on exhaustion). -/
lemma loopAux_depth_reached (g : Graph) (target : String) (et : EdgeType)
    (ctx : ExecutionContext) :
    ∀ (fuel : Nat) (q : List (String × Nat)) (v : List String) (popped : Nat) (fi : Bool)
      (r : FPOut), loopAux g target et ctx fuel q v popped fi = some r →
      r.depth_reached =
        (if r.exitKind = .found ∨ r.exitKind = .mutex then r.lastDepth
         else if r.exitKind = .exhausted then ctx.max_depth
         else if r.queueEmptyAtExit then ctx.max_depth else r.lastDepth) := by
  intro fuel
  induction fuel with
  | zero =>
    intro q v popped fi r hrun
    match q with
    | [] =>
      simp only [loopAux] at hrun
      rw [← Option.some.inj hrun]
      simp
    | p :: rest => exact absurd hrun (by simp [loopAux])
  | succ fuel ih =>
    intro q v popped fi r hrun
    match q with
    | [] =>
      simp only [loopAux] at hrun
      rw [← Option.some.inj hrun]
      simp
    | (current, depth) :: rest =>
      simp only [loopAux] at hrun
      by_cases hd : depth > ctx.max_depth
      · rw [if_pos hd] at hrun
        rw [← Option.some.inj hrun]
        simp
      · rw [if_neg hd] at hrun
        by_cases ht : ctx.timeoutAt popped
        · rw [if_pos ht] at hrun
          rw [← Option.some.inj hrun]
          simp
        · rw [if_neg ht] at hrun
          by_cases hmx : check_mutual_exclusivity (get_relationships_by_head g current) target
          · rw [if_pos hmx] at hrun
            rw [← Option.some.inj hrun]
            simp
          · rw [if_neg hmx] at hrun
            rcases hexp : expand target depth
                (filter_relevant_relationships (get_relationships_by_head g current) et fi)
                rest v with _ | ⟨q1, v1⟩
            · rw [hexp] at hrun
              rw [← Option.some.inj hrun]
              simp
            · rw [hexp] at hrun
              exact ih q1 v1 (popped + 1) false r hrun

/-- The candidate-parent loop of the AttributeReasoner can only answer
YES or DONT_KNOW: a NO from a hierarchy sub-query is not returned, the
iteration just moves on. -/
lemma attrLoop_result (g : Graph) (ctx : ExecutionContext) (head : String) :
    ∀ (ps : List String) (acc : Nat),
      (attrLoop g ctx head ps acc).1 = .YES ∨ (attrLoop g ctx head ps acc).1 = .DONT_KNOW := by
  intro ps
  induction ps with
  | nil => intro acc; exact Or.inr rfl
  | cons p ps ih =>
    intro acc
    simp only [attrLoop]
    by_cases hy : (hierarchyReason g ⟨.SUBCLASS_OF, head, p⟩ ctx).1 = .YES
    · rw [if_pos hy]
      exact Or.inl rfl
    · rw [if_neg hy]
      exact ih _

/-- `AttributeReasoner.reason` never returns NO. -/
lemma attributeReason_result (g : Graph) (q : Question) (ctx : ExecutionContext) :
    (attributeReason g q ctx).1 = .YES ∨ (attributeReason g q ctx).1 = .DONT_KNOW := by
  unfold attributeReason
  simp only []
  split
  · exact Or.inl rfl
  · exact attrLoop_result g ctx q.head _ _

/-- The set of entities reachable from the start is finite. -/
lemma reachSet_finite (g : Graph) (et : EdgeType) (start : String) :
    {x | TReach g et start x}.Finite := by
  refine Set.Finite.subset (nodeUniverse g start).finite_toSet ?_
  intro x hx
  exact TReach_mem_universe hx

lemma init_fuel (g : Graph) (start : String) :
    2 * ((nodeUniverse g start).dedup.length - 1) + 1 ≤ fuelBound g := by
  have h1 : (nodeUniverse g start).dedup.length ≤ 1 + (g.map (·.tail_entity)).dedup.length :=
    dedup_cons_length_le
  unfold fuelBound
  omega

/-- `findPathO` always returns, and the number of dequeues is bounded
by the number of distinct entities reachable from the start. -/
lemma findPathO_eq_some (g : Graph) (start target : String) (et : EdgeType)
    (ctx : ExecutionContext) :
    ∃ r, findPathO g start target et ctx = some r ∧
      r.entities_visited ≤ {x | TReach g et start x}.ncard := by
  have hncard : 0 < {x | TReach g et start x}.ncard :=
    (Set.ncard_pos (reachSet_finite g et start)).2 ⟨start, TReach.refl⟩
  rcases loopAux_total g start target et ctx (fuelBound g) [(start, 0)] [start] 0 true
      (by simp) (by simp [nodeUniverse]) (by simp; exact TReach.refl)
      (by simp) (by simp)
      (by simpa using init_fuel g start) with ⟨r, hrun, hev⟩
  refine ⟨r, hrun, ?_⟩
  simp only [List.length_cons, List.length_nil, List.length_singleton] at hev
  omega

/-- C3 (counterexample): `find_path` itself performs no reflexivity
short-circuit.  On the empty graph, find_path("x","x",SUBCLASS_OF)
returns DONT_KNOW, not the YES the claim requires, and
find_path("x","x",INSTANCE_OF) returns DONT_KNOW, not NO. -/
theorem find_path_no_reflexivity_shortcircuit :
    (find_path [] "x" "x" .SUBCLASS_OF defaultCtx).1 = .DONT_KNOW ∧
    ¬ ((find_path [] "x" "x" .SUBCLASS_OF defaultCtx).1 = .YES) ∧
    ¬ ((find_path [] "x" "x" .INSTANCE_OF defaultCtx).1 = .NO) := by
  refine ⟨by decide, by decide, by decide⟩

/-- C3 (amended): the reflexivity short-circuit lives one layer up, in
`HierarchyReasoner.reason`: for every question with head = tail it
returns YES when the question type is SUBCLASS_OF and NO otherwise,
with zero entities visited (no traversal is started). -/
theorem hierarchy_reflexivity_shortcircuit (g : Graph) (ctx : ExecutionContext)
    (qt : QuestionType) (x : String) :
    (hierarchyReason g ⟨qt, x, x⟩ ctx).1 = (if qt = .SUBCLASS_OF then .YES else .NO) ∧
    (hierarchyReason g ⟨qt, x, x⟩ ctx).2.entities_visited = 0 := by
  unfold hierarchyReason
  simp

/-- C10: `find_path` terminates on every finite graph, cyclic or not
and whatever the depth/timeout knobs say: the loop, run with
`fuelBound` fuel, always completes (`some`), and its number of dequeue
events is bounded by the number of distinct entities reachable from
the start (entities are visited-marked when enqueued and never
enqueued twice). -/
theorem find_path_terminates (g : Graph) (start target : String) (et : EdgeType)
    (ctx : ExecutionContext) :
    ∃ r, findPathO g start target et ctx = some r ∧
      r.entities_visited ≤ {x | TReach g et start x}.ncard :=
  findPathO_eq_some g start target et ctx

/-- C7 (counterexample): depth_reached does not match the claim.  With
no timeout, a search that exhausts the queue reports
depth_reached = ctx.max_depth = 64, not the last dequeued depth 1; and
a search stopped by the timeout with a non-empty queue reports the last
dequeued depth 1, not ctx.max_depth. -/
theorem depth_reached_counterexample :
    (findPathO [⟨.SUBCLASS_OF, "a", "b"⟩] "a" "c" .SUBCLASS_OF defaultCtx =
      some ⟨.DONT_KNOW, 2, 64, .exhausted, 0, true⟩) ∧
    (findPathO [⟨.SUBCLASS_OF, "a", "b"⟩, ⟨.SUBCLASS_OF, "a", "c"⟩] "a" "z" .SUBCLASS_OF
        ⟨64, fun n => decide (1 ≤ n)⟩ =
      some ⟨.DONT_KNOW, 2, 1, .timeBreak, 1, false⟩) := by
  refine ⟨by decide, by decide⟩

/-- C7 (amended): depth_reached equals the last dequeued depth at the
YES and NO exits; at a depth/timeout break it equals the last dequeued
depth if the queue is still non-empty and ctx.max_depth if the break
emptied the queue; and on exhaustion it equals ctx.max_depth. -/
theorem depth_reached_characterization (g : Graph) (start target : String)
    (et : EdgeType) (ctx : ExecutionContext) :
    ∃ r, findPathO g start target et ctx = some r ∧
      r.depth_reached =
        (if r.exitKind = .found ∨ r.exitKind = .mutex then r.lastDepth
         else if r.exitKind = .exhausted then ctx.max_depth
         else if r.queueEmptyAtExit then ctx.max_depth else r.lastDepth) := by
  rcases findPathO_eq_some g start target et ctx with ⟨r, hrun, _⟩
  refine ⟨r, hrun, ?_⟩
  unfold findPathO at hrun
  exact loopAux_depth_reached g target et ctx _ _ _ _ _ r hrun

/-- C9: a HAS_ATTRIBUTE question dispatches to the AttributeReasoner,
which returns only YES or DONT_KNOW — a NO from a hierarchy sub-query
is discarded and iteration continues, so no HAS_ATTRIBUTE question
yields a definitive NO. -/
theorem has_attribute_never_no (g : Graph) (h t : String) (ctx : ExecutionContext) :
    ((reasonDispatch g ⟨.HAS_ATTRIBUTE, h, t⟩ ctx).1 = .YES ∨
      (reasonDispatch g ⟨.HAS_ATTRIBUTE, h, t⟩ ctx).1 = .DONT_KNOW) ∧
    (reasonDispatch g ⟨.HAS_ATTRIBUTE, h, t⟩ ctx).1 ≠ .NO := by
  have hres := attributeReason_result g ⟨.HAS_ATTRIBUTE, h, t⟩ ctx
  simp only [reasonDispatch] at *
  exact ⟨hres, by rcases hres with h' | h' <;> simp [h']⟩

/-- C5: over every graph and question, NO arises only from the
reflexivity rule (head = tail on a non-SUBCLASS_OF question) or from a
MUTUALLY_EXCLUSIVE edge into the question's tail whose head the
traversal can reach; mere absence of a path yields DONT_KNOW, never
NO. -/
theorem no_only_reflexivity_or_mutex (g : Graph) (q : Question) (ctx : ExecutionContext)
    (hno : (reasonDispatch g q ctx).1 = .NO) :
    (q.head = q.tail ∧ q.question_type ≠ .SUBCLASS_OF) ∨
    ∃ e ∈ g, e.edge_type = .MUTUALLY_EXCLUSIVE ∧ e.tail_entity = q.tail ∧
      TReach g (if q.question_type = .SUBCLASS_OF then .SUBCLASS_OF else .INSTANCE_OF)
        q.head e.head_entity := by
  rcases q with ⟨qt, h, t⟩
  cases qt
  case HAS_ATTRIBUTE =>
    exfalso
    have hres := attributeReason_result g ⟨.HAS_ATTRIBUTE, h, t⟩ ctx
    simp only [reasonDispatch] at hno
    rcases hres with h' | h' <;> rw [h'] at hno <;> exact absurd hno (by simp)
  case SUBCLASS_OF =>
    simp only [reasonDispatch] at hno
    unfold hierarchyReason at hno
    by_cases hht : h = t
    · rw [if_pos hht] at hno
      simp at hno
    · rw [if_neg hht] at hno
      refine Or.inr ?_
      rcases findPathO_eq_some g h t .SUBCLASS_OF ctx with ⟨r, hrun, _⟩
      have hfp : (find_path g h t EdgeType.SUBCLASS_OF ctx).1 = QuestionResult.NO := hno
      unfold find_path at hfp
      rw [hrun] at hfp
      have hres : r.result = .NO := hfp
      have hrun' := hrun
      unfold findPathO at hrun'
      have := loopAux_no_sound g h t .SUBCLASS_OF ctx (fuelBound g) [(h, 0)] [h] 0 true
        (by simp; exact TReach.refl) (by simp) (by simp) r hrun' hres
      simpa using this
  case INSTANCE_OF =>
    simp only [reasonDispatch] at hno
    unfold hierarchyReason at hno
    by_cases hht : h = t
    · exact Or.inl ⟨hht, by simp⟩
    · rw [if_neg hht] at hno
      refine Or.inr ?_
      rcases findPathO_eq_some g h t .INSTANCE_OF ctx with ⟨r, hrun, _⟩
      have hfp : (find_path g h t EdgeType.INSTANCE_OF ctx).1 = QuestionResult.NO := hno
      unfold find_path at hfp
      rw [hrun] at hfp
      have hres : r.result = .NO := hfp
      have hrun' := hrun
      unfold findPathO at hrun'
      have := loopAux_no_sound g h t .INSTANCE_OF ctx (fuelBound g) [(h, 0)] [h] 0 true
        (by simp; exact TReach.refl) (by simp) (by simp) r hrun' hres
      simpa using this

/-- C4 (amended): if the graph has a MUTUALLY_EXCLUSIVE edge (A, B),
A is reachable from D along SUBCLASS_OF edges within the depth bound
(a walk of some length n with n ≤ ctx.max_depth), no SUBCLASS_OF path
from D reaches B itself, and the timeout never fires, then the
SUBCLASS_OF question "is D a type of B?" answers NO: BFS dequeues
entities in nondecreasing depth order, so A is dequeued — and its
mutex check fires — before the depth cap can break the loop. -/
theorem mutex_descendant_no (g : Graph) (D A B : String) (ctx : ExecutionContext) (n : Nat)
    (hME : (⟨.MUTUALLY_EXCLUSIVE, A, B⟩ : Edge) ∈ g)
    (hA : SubWalk g [] D A n)
    (hn : n ≤ ctx.max_depth)
    (hnB : ¬ TReach g .SUBCLASS_OF D B)
    (htmo : ∀ k, ctx.timeoutAt k = false) :
    (hierarchyReason g ⟨.SUBCLASS_OF, D, B⟩ ctx).1 = .NO := by
  have hDB : D ≠ B := fun hctr => hnB (hctr ▸ TReach.refl)
  have hinit : (∃ dA, (A, dA) ∈ [((D : String), (0 : Nat))] ∧ dA ≤ n) ∨
      (∃ p ∈ [((D : String), (0 : Nat))], ∃ m,
        1 ≤ m ∧ SubWalk g [D] p.1 A m ∧ p.2 + m ≤ n) := by
    by_cases hAD : A = D
    · exact Or.inl ⟨0, by simp [hAD], Nat.zero_le n⟩
    · rcases subWalk_avoid_start hA hAD with ⟨n', hn', hcase⟩
      have hwD : SubWalk g [D] D A n' := by
        rcases hcase with ⟨hw, hzD⟩ | hw
        · exact absurd rfl hzD
        · exact hw
      cases n' with
      | zero => exact absurd (subWalk_zero hwD).symm hAD
      | succ m' =>
        refine Or.inr ⟨(D, 0), by simp, m' + 1, by omega, hwD, ?_⟩
        show 0 + (m' + 1) ≤ n
        omega
  unfold hierarchyReason
  rw [if_neg hDB]
  rcases loopAux_no_complete g D A B ctx n hME hnB htmo hn (fuelBound g)
      [(D, 0)] [D] 0 true (by simp) (by simp [nodeUniverse])
      (by simp; exact TReach.refl) (by simp) (by simp)
      (by
        intro p hp p' hp'
        simp only [List.mem_singleton] at hp hp'
        subst hp
        subst hp'
        exact Nat.le_succ _)
      hinit
      (by simpa using init_fuel g D) with ⟨r, hrun, hres⟩
  show (find_path g D B EdgeType.SUBCLASS_OF ctx).1 = QuestionResult.NO
  unfold find_path findPathO
  rw [hrun]
  exact hres

/-- C1 (evaluation at the failing input): with exactly the edges
(A HAS_ATTRIBUTE P), (B SUBCLASS_OF A), (C INSTANCE_OF B) stored — all
four entities known — the end-to-end pipeline answers YES for
"is B considered to be P?" but only DONT_KNOW for
"is C considered to be P?": the AttributeReasoner's hierarchy
sub-queries are SUBCLASS_OF questions, and the traversal then filters
out C's INSTANCE_OF edge, so attribute inheritance through INSTANCE_OF
is lost. -/
theorem attribute_inheritance_instance_hop :
    (∃ p, process_question
        [⟨.HAS_ATTRIBUTE, "A", "P"⟩, ⟨.SUBCLASS_OF, "B", "A"⟩, ⟨.INSTANCE_OF, "C", "B"⟩]
        emptyCache "is B considered to be P?" = .ok p ∧ p.1.result = .YES) ∧
    (∃ p, process_question
        [⟨.HAS_ATTRIBUTE, "A", "P"⟩, ⟨.SUBCLASS_OF, "B", "A"⟩, ⟨.INSTANCE_OF, "C", "B"⟩]
        emptyCache "is C considered to be P?" = .ok p ∧ p.1.result = .DONT_KNOW) := by
  constructor
  · exact ⟨_, rfl, rfl⟩
  · exact ⟨_, rfl, rfl⟩

/-- C2: the orchestrator has no try/except around parsing, so for
every input the parser rejects, process_question propagates the parse
failure (`QuestionParsingException`) to the caller instead of
returning a DONT_KNOW QueryResult. -/
theorem parse_failure_propagates (g : Graph) (c : Cache) (s : String)
    (h : Question.from_string s = none) :
    process_question g c s = .error ("Unable to parse question: " ++ s) := by
  unfold process_question
  rw [h]

/-- Witness for `parse_failure_propagates` at the repository's own
unparseable test input. -/
theorem parse_failure_propagates_witness :
    Question.from_string "how are pufferfish and fish related?" = none ∧
    process_question [] emptyCache "how are pufferfish and fish related?" =
      .error ("Unable to parse question: " ++ "how are pufferfish and fish related?") :=
  ⟨by decide, parse_failure_propagates [] emptyCache _ (by decide)⟩

/-- C6 (counterexample): a parseable question whose entities are not in
the store never reaches the coordinator, so asking it twice leaves the
cache untouched and the second call reports cache_hit = false. -/
theorem cache_hit_counterexample :
    ∃ p1, process_question [] emptyCache "is dog a type of animal?" = .ok p1 ∧
      ∃ p2, process_question [] p1.2 "is dog a type of animal?" = .ok p2 ∧
        p2.1.cache_hit = false := by
  exact ⟨_, rfl, _, rfl, rfl⟩

/-- Cache hit branch of `answer_question`. -/
lemma answer_question_hit {g : Graph} {c : Cache} {q : Question} {v : QuestionResult}
    (hc : c (q.question_type, q.head, q.tail) = some v) :
    answer_question g c q =
      ({ result := v, confidence := 1, entities_visited := 0, cache_hit := true,
         explanation := none }, c) := by
  unfold answer_question
  simp only [hc]

/-- Cache miss branch of `answer_question`. -/
lemma answer_question_miss {g : Graph} {c : Cache} {q : Question}
    (hc : c (q.question_type, q.head, q.tail) = none) :
    answer_question g c q =
      ({ result := (reasonDispatch g q defaultCtx).1, confidence := 95 / 100,
         entities_visited := (reasonDispatch g q defaultCtx).2.entities_visited,
         cache_hit := (reasonDispatch g q defaultCtx).2.cache_hit, explanation := none },
       cacheInsert c (q.question_type, q.head, q.tail) (reasonDispatch g q defaultCtx).1) := by
  unfold answer_question
  simp only [hc]

/-- The coordinator-level cache round trip: whatever the cache held
before, answering the same question twice gives the same result value,
and the second answer is a cache hit with confidence 1 and zero
entities visited. -/
lemma answer_question_twice (g : Graph) (c : Cache) (q : Question) :
    ∃ r1 c1, answer_question g c q = (r1, c1) ∧
      ∃ r2 c2, answer_question g c1 q = (r2, c2) ∧
        r2.result = r1.result ∧ r2.cache_hit = true ∧ r2.entities_visited = 0 ∧
        r2.confidence = 1 := by
  rcases hc : c (q.question_type, q.head, q.tail) with _ | v
  · have h1 := answer_question_miss (g := g) hc
    have hkey : cacheInsert c (q.question_type, q.head, q.tail)
        (reasonDispatch g q defaultCtx).1 (q.question_type, q.head, q.tail) =
        some (reasonDispatch g q defaultCtx).1 := by
      unfold cacheInsert
      simp
    have h2 := answer_question_hit (g := g) hkey
    exact ⟨_, _, h1, _, _, h2, rfl, rfl, rfl, rfl⟩
  · have h1 := answer_question_hit (g := g) hc
    exact ⟨_, _, h1, _, _, h1, rfl, rfl, rfl, rfl⟩

/-- C6 (amended): for every parseable question whose two entities are
both known to the store, asked twice against an unchanged graph, both
calls return the same result value, and the second call's QueryResult
has cache_hit = true, entities_visited = 0 and confidence 1. -/
theorem cache_idempotent (g : Graph) (c : Cache) (s : String) (q : Question)
    (hp : Question.from_string s = some q)
    (he : entities_exist g q.head q.tail = true) :
    ∃ r1 c1 r2 c2, process_question g c s = .ok (r1, c1) ∧
      process_question g c1 s = .ok (r2, c2) ∧
      r2.result = r1.result ∧ r2.cache_hit = true ∧ r2.entities_visited = 0 ∧
      r2.confidence = 1 := by
  have hstep : ∀ c' : Cache, process_question g c' s = .ok (answer_question g c' q) := by
    intro c'
    unfold process_question
    rw [hp]
    exact if_pos he
  rcases answer_question_twice g c q with ⟨r1, c1, h1, r2, c2, h2, hre, hch, hev, hcf⟩
  refine ⟨r1, c1, r2, c2, ?_, ?_, hre, hch, hev, hcf⟩
  · rw [hstep c, h1]
  · rw [hstep c1, h2]

/-- Witness for `cache_idempotent` on a one-edge graph. -/
theorem cache_idempotent_witness :
    (Question.from_string "is dog a type of animal?" =
      some ⟨.SUBCLASS_OF, "dog", "animal"⟩) ∧
    (entities_exist [⟨.SUBCLASS_OF, "dog", "animal"⟩] "dog" "animal" = true) ∧
    ∃ r1 c1 r2 c2,
      process_question [⟨.SUBCLASS_OF, "dog", "animal"⟩] emptyCache
          "is dog a type of animal?" = .ok (r1, c1) ∧
      process_question [⟨.SUBCLASS_OF, "dog", "animal"⟩] c1
          "is dog a type of animal?" = .ok (r2, c2) ∧
      r2.result = r1.result ∧ r2.cache_hit = true ∧ r2.entities_visited = 0 ∧
      r2.confidence = 1 :=
  ⟨by decide, by decide,
    cache_idempotent [⟨.SUBCLASS_OF, "dog", "animal"⟩] emptyCache
      "is dog a type of animal?" ⟨.SUBCLASS_OF, "dog", "animal"⟩ (by decide) (by decide)⟩

/-- Witness for `no_only_reflexivity_or_mutex`: a direct
mutual-exclusivity NO. -/
theorem no_only_reflexivity_or_mutex_witness :
    ((reasonDispatch [⟨.MUTUALLY_EXCLUSIVE, "a", "b"⟩] ⟨.SUBCLASS_OF, "a", "b"⟩
        defaultCtx).1 = .NO) ∧
    (("a" = "b" ∧ QuestionType.SUBCLASS_OF ≠ .SUBCLASS_OF) ∨
      ∃ e ∈ ([⟨.MUTUALLY_EXCLUSIVE, "a", "b"⟩] : Graph),
        e.edge_type = .MUTUALLY_EXCLUSIVE ∧ e.tail_entity = "b" ∧
        TReach [⟨.MUTUALLY_EXCLUSIVE, "a", "b"⟩] .SUBCLASS_OF "a" e.head_entity) :=
  ⟨by decide,
    no_only_reflexivity_or_mutex [⟨.MUTUALLY_EXCLUSIVE, "a", "b"⟩]
      ⟨.SUBCLASS_OF, "a", "b"⟩ defaultCtx (by decide)⟩

lemma mutexWitness_walk : SubWalk mutexWitnessGraph [] "d" "a" 1 :=
  SubWalk.cons ⟨.SUBCLASS_OF, "d", "a"⟩ (by decide) rfl (List.not_mem_nil _)
    (SubWalk.refl "a")

lemma mutexWitness_noPath : ¬ TReach mutexWitnessGraph .SUBCLASS_OF "d" "b" := by
  have hgen : ∀ x, TReach mutexWitnessGraph .SUBCLASS_OF "d" x → x ≠ "b" := by
    intro x hx
    induction hx with
    | refl => decide
    | firstHop e he het hty hhd => exact absurd het (by decide)
    | step y e hy heg hty hhd ihy =>
      rcases List.mem_cons.1 heg with rfl | h2
      · decide
      · rcases List.mem_singleton.1 h2 with rfl
        exact absurd hty (by decide)
  exact fun hctr => hgen "b" hctr rfl

/-- Witness for `mutex_descendant_no` on the two-edge graph. -/
theorem mutex_descendant_no_witness :
    ((⟨.MUTUALLY_EXCLUSIVE, "a", "b"⟩ : Edge) ∈ mutexWitnessGraph ∧
      SubWalk mutexWitnessGraph [] "d" "a" 1 ∧
      1 ≤ defaultCtx.max_depth ∧
      ¬ TReach mutexWitnessGraph .SUBCLASS_OF "d" "b" ∧
      (∀ k, defaultCtx.timeoutAt k = false)) ∧
    (hierarchyReason mutexWitnessGraph ⟨.SUBCLASS_OF, "d", "b"⟩ defaultCtx).1 = .NO :=
  ⟨⟨by decide, mutexWitness_walk, by decide, mutexWitness_noPath, fun _ => rfl⟩,
    mutex_descendant_no mutexWitnessGraph "d" "a" "b" defaultCtx 1 (by decide)
      mutexWitness_walk (by decide) mutexWitness_noPath (fun _ => rfl)⟩

/-! ### Round-trip lemmas for the question patterns -/

lemma lastSplit_some {sep : List Char} :
    ∀ {s g1 g2 : List Char}, lastSplit sep s = some (g1, g2) → s = g1 ++ (sep ++ g2) := by
  intro s
  induction s with
  | nil => intro g1 g2 h; exact absurd h (by simp [lastSplit])
  | cons c cs ih =>
    intro g1 g2 h
    rcases hsplit : lastSplit sep cs with _ | ⟨a, b⟩
    · simp only [lastSplit, hsplit] at h
      split at h
      · rename_i hpre
        rcases List.isPrefixOf_iff_prefix.1 hpre with ⟨u, hu⟩
        rcases Option.some.inj h with h'
        rcases Prod.mk.injEq .. ▸ h' with ⟨rfl, rfl⟩
        rw [List.nil_append, ← hu, List.drop_left]
      · exact absurd h (by simp)
    · simp only [lastSplit, hsplit] at h
      rcases Option.some.inj h with h'
      rcases Prod.mk.injEq .. ▸ h' with ⟨rfl, rfl⟩
      rw [ih hsplit]
      rfl

lemma lastSplit_none {sep : List Char} :
    ∀ {s : List Char}, ¬ sep <:+: s → lastSplit sep s = none := by
  intro s
  induction s with
  | nil => intro _; rfl
  | cons c cs ih =>
    intro hni
    rcases hsplit : lastSplit sep cs with _ | ⟨a, b⟩
    · simp only [lastSplit, hsplit]
      rw [if_neg]
      intro hpre
      exact hni (List.isPrefixOf_iff_prefix.1 hpre).isInfix
    · exfalso
      exact hni (List.infix_cons ⟨a, b, (lastSplit_some hsplit).symm ▸ by simp⟩)

lemma lastSplit_append {sep : List Char} (hsep : sep ≠ []) (t : List Char)
    (hni : ¬ sep <:+: (sep.drop 1 ++ t)) :
    ∀ h : List Char, lastSplit sep (h ++ (sep ++ t)) = some (h, t) := by
  intro h
  induction h with
  | nil =>
    rcases hcs : sep with _ | ⟨c, sr⟩
    · exact absurd hcs hsep
    · subst hcs
      have hnone : lastSplit (c :: sr) (sr ++ t) = none := lastSplit_none hni
      show lastSplit (c :: sr) (c :: (sr ++ t)) = some ([], t)
      simp only [lastSplit, hnone]
      rw [if_pos (List.isPrefixOf_iff_prefix.2 ⟨t, by simp⟩)]
      simp [List.drop_left]
  | cons c h ih =>
    show lastSplit sep (c :: (h ++ (sep ++ t))) = some (c :: h, t)
    simp only [lastSplit, ih]

lemma lastSplitInst_some :
    ∀ {s g1 g2 : List Char}, lastSplitInst s = some (g1, g2) →
      s = g1 ++ (" a ".toList ++ g2) ∨ s = g1 ++ (" an ".toList ++ g2) := by
  intro s
  induction s with
  | nil => intro g1 g2 h; exact absurd h (by simp [lastSplitInst])
  | cons c cs ih =>
    intro g1 g2 h
    rcases hsplit : lastSplitInst cs with _ | ⟨a, b⟩
    · simp only [lastSplitInst, hsplit] at h
      split at h
      · rename_i hpre
        rcases List.isPrefixOf_iff_prefix.1 hpre with ⟨u, hu⟩
        rcases Option.some.inj h with h'
        rcases Prod.mk.injEq .. ▸ h' with ⟨rfl, rfl⟩
        refine Or.inl ?_
        rw [List.nil_append, ← hu]
        rfl
      · split at h
        · rename_i hpre
          rcases List.isPrefixOf_iff_prefix.1 hpre with ⟨u, hu⟩
          rcases Option.some.inj h with h'
          rcases Prod.mk.injEq .. ▸ h' with ⟨rfl, rfl⟩
          refine Or.inr ?_
          rw [List.nil_append, ← hu]
          rfl
        · exact absurd h (by simp)
    · simp only [lastSplitInst, hsplit] at h
      rcases Option.some.inj h with h'
      rcases Prod.mk.injEq .. ▸ h' with ⟨rfl, rfl⟩
      rcases ih hsplit with hcase | hcase
      · exact Or.inl (by rw [hcase]; rfl)
      · exact Or.inr (by rw [hcase]; rfl)

lemma lastSplitInst_none :
    ∀ {s : List Char}, ¬ (" a ".toList <:+: s) → ¬ (" an ".toList <:+: s) →
      lastSplitInst s = none := by
  intro s
  induction s with
  | nil => intro _ _; rfl
  | cons c cs ih =>
    intro hn1 hn2
    rcases hsplit : lastSplitInst cs with _ | ⟨a, b⟩
    · simp only [lastSplitInst, hsplit]
      rw [if_neg, if_neg]
      · intro hpre
        exact hn2 (List.isPrefixOf_iff_prefix.1 hpre).isInfix
      · intro hpre
        exact hn1 (List.isPrefixOf_iff_prefix.1 hpre).isInfix
    · exfalso
      rcases lastSplitInst_some hsplit with hcase | hcase
      · exact hn1 (List.infix_cons ⟨a, b, hcase ▸ by simp⟩)
      · exact hn2 (List.infix_cons ⟨a, b, hcase ▸ by simp⟩)

lemma lastSplitInst_cons (c : Char) (s' : List Char) :
    lastSplitInst (c :: s') =
      (match lastSplitInst s' with
       | some (g1, g2) => some (c :: g1, g2)
       | none =>
         if (" a ".toList).isPrefixOf (c :: s') then some ([], (c :: s').drop 3)
         else if (" an ".toList).isPrefixOf (c :: s') then some ([], (c :: s').drop 4)
         else none) := rfl

lemma lastSplitInst_append (t : List Char)
    (hn1 : ¬ " a ".toList <:+: ("a ".toList ++ t))
    (hn2 : ¬ " an ".toList <:+: ("a ".toList ++ t)) :
    ∀ h : List Char, lastSplitInst (h ++ (" a ".toList ++ t)) = some (h, t) := by
  intro h
  induction h with
  | nil =>
    have hnone : lastSplitInst ("a ".toList ++ t) = none := lastSplitInst_none hn1 hn2
    show lastSplitInst (' ' :: ("a ".toList ++ t)) = some ([], t)
    rw [lastSplitInst_cons, hnone]
    show (if (" a ".toList).isPrefixOf (' ' :: ("a ".toList ++ t)) = true then
        some (([] : List Char), (' ' :: ("a ".toList ++ t)).drop 3)
      else if (" an ".toList).isPrefixOf (' ' :: ("a ".toList ++ t)) = true then
        some ([], (' ' :: ("a ".toList ++ t)).drop 4)
      else none) = some ([], t)
    rw [if_pos (List.isPrefixOf_iff_prefix.2
      (⟨t, rfl⟩ : " a ".toList <+: (' ' :: ("a ".toList ++ t))))]
    rfl
  | cons c h ih =>
    show lastSplitInst (c :: (h ++ (" a ".toList ++ t))) = some (c :: h, t)
    simp only [lastSplitInst, ih]

lemma pyMatch_shape (sep core : List Char) (hnl : '\n' ∉ core) :
    pyMatch sep ("is ".toList ++ (core ++ ['?'])) = lastSplit sep core := by
  unfold pyMatch
  rw [if_pos]
  · rw [show (3 : Nat) = ("is ".toList).length from rfl, List.drop_left,
      List.dropLast_concat]
  · simp only [Bool.and_eq_true]
    refine ⟨⟨?_, ?_⟩, ?_⟩
    · exact List.isPrefixOf_iff_prefix.2 ⟨core ++ ['?'], rfl⟩
    · rw [← List.append_assoc, List.getLast?_concat]
      simp
    · simp [hnl]

lemma pyMatchInst_shape (core : List Char) (hnl : '\n' ∉ core) :
    pyMatchInst ("is ".toList ++ (core ++ ['?'])) = lastSplitInst core := by
  unfold pyMatchInst
  rw [if_pos]
  · rw [show (3 : Nat) = ("is ".toList).length from rfl, List.drop_left,
      List.dropLast_concat]
  · simp only [Bool.and_eq_true]
    refine ⟨⟨?_, ?_⟩, ?_⟩
    · exact List.isPrefixOf_iff_prefix.2 ⟨core ++ ['?'], rfl⟩
    · rw [← List.append_assoc, List.getLast?_concat]
      simp
    · simp [hnl]

/-- C8 (counterexample): the round trip fails in general — rendering
the INSTANCE_OF triple (x, "type of y") gives "is x a type of y?",
which the parser reads back as the SUBCLASS_OF triple (x, y). -/
theorem parse_round_trip_counterexample :
    fromChars (renderQuestion .INSTANCE_OF "x".toList "type of y".toList) =
      some (.SUBCLASS_OF, "x".toList, "y".toList) ∧
    fromChars (renderQuestion .INSTANCE_OF "x".toList "type of y".toList) ≠
      some (.INSTANCE_OF, "x".toList, "type of y".toList) := by
  refine ⟨by decide, by decide⟩

/-- C8 (amended): for non-empty head and tail, rendering a question
triple and parsing the string back returns the original triple,
provided the pattern keywords do not collide (`RoundtripSafe`): no
earlier-tried pattern's separator occurs in the rendered core, and the
rendered separator's occurrence is the last of its own pattern. -/
theorem parse_round_trip (qt : QuestionType) (h t : List Char)
    (_hh : h ≠ []) (_ht : t ≠ []) (hsafe : RoundtripSafe qt h t) :
    fromChars (renderQuestion qt h t) = some (qt, h, t) := by
  cases qt
  case SUBCLASS_OF =>
    rcases hsafe with ⟨hnh, hnt, hs1⟩
    have hcore : '\n' ∉ h ++ (" a type of ".toList ++ t) := by
      simp only [List.mem_append]
      rintro (hc | hc | hc)
      · exact hnh hc
      · exact absurd hc (by decide)
      · exact hnt hc
    have hshape : renderQuestion .SUBCLASS_OF h t =
        "is ".toList ++ ((h ++ (" a type of ".toList ++ t)) ++ ['?']) := by
      simp [renderQuestion, List.append_assoc]
    unfold fromChars
    rw [hshape, pyMatch_shape _ _ hcore,
      lastSplit_append (by decide) t hs1 h]
  case INSTANCE_OF =>
    rcases hsafe with ⟨hnh, hnt, hs1, hs2, hs3⟩
    have hcore : '\n' ∉ h ++ (" a ".toList ++ t) := by
      simp only [List.mem_append]
      rintro (hc | hc | hc)
      · exact hnh hc
      · exact absurd hc (by decide)
      · exact hnt hc
    have hshape : renderQuestion .INSTANCE_OF h t =
        "is ".toList ++ ((h ++ (" a ".toList ++ t)) ++ ['?']) := by
      simp [renderQuestion, List.append_assoc]
    unfold fromChars
    rw [hshape, pyMatch_shape _ _ hcore, lastSplit_none (by simpa using hs1),
      pyMatchInst_shape _ hcore, lastSplitInst_append t hs2 hs3 h]
  case HAS_ATTRIBUTE =>
    rcases hsafe with ⟨hnh, hnt, hs1, hs2, hs3, hs4⟩
    have hcore : '\n' ∉ h ++ (" considered to be ".toList ++ t) := by
      simp only [List.mem_append]
      rintro (hc | hc | hc)
      · exact hnh hc
      · exact absurd hc (by decide)
      · exact hnt hc
    have hshape : renderQuestion .HAS_ATTRIBUTE h t =
        "is ".toList ++ ((h ++ (" considered to be ".toList ++ t)) ++ ['?']) := by
      simp [renderQuestion, List.append_assoc]
    unfold fromChars
    rw [hshape, pyMatch_shape _ _ hcore, lastSplit_none (by simpa using hs1),
      pyMatchInst_shape _ hcore, lastSplitInst_none (by simpa using hs2) (by simpa using hs3),
      pyMatch_shape _ _ hcore, lastSplit_append (by decide) t hs4 h]

/-- Witness for `parse_round_trip` on a question from the repository's
test ontology. -/
theorem parse_round_trip_witness :
    (("hemlock".toList ≠ ([] : List Char)) ∧ ("poisonous".toList ≠ ([] : List Char)) ∧
      RoundtripSafe .HAS_ATTRIBUTE "hemlock".toList "poisonous".toList) ∧
    fromChars (renderQuestion .HAS_ATTRIBUTE "hemlock".toList "poisonous".toList) =
      some (.HAS_ATTRIBUTE, "hemlock".toList, "poisonous".toList) :=
  ⟨⟨by decide, by decide, by decide⟩,
    parse_round_trip .HAS_ATTRIBUTE "hemlock".toList "poisonous".toList
      (by decide) (by decide) (by decide)⟩

/-- C4 (counterexample): the mutual-exclusivity descendant rule is not
unconditional.  In the graph {D SUBCLASS_OF B, D SUBCLASS_OF A,
A MUTUALLY_EXCLUSIVE B}, A is reachable from D in one SUBCLASS_OF hop
(well within max_depth), yet "is D a type of B?" answers YES — the
direct SUBCLASS_OF edge into B is found before A's mutex edge is ever
checked. -/
theorem mutex_descendant_counterexample :
    TReach [⟨.SUBCLASS_OF, "D", "B"⟩, ⟨.SUBCLASS_OF, "D", "A"⟩,
        ⟨.MUTUALLY_EXCLUSIVE, "A", "B"⟩] .SUBCLASS_OF "D" "A" ∧
    (hierarchyReason [⟨.SUBCLASS_OF, "D", "B"⟩, ⟨.SUBCLASS_OF, "D", "A"⟩,
        ⟨.MUTUALLY_EXCLUSIVE, "A", "B"⟩] ⟨.SUBCLASS_OF, "D", "B"⟩ defaultCtx).1 = .YES ∧
    (hierarchyReason [⟨.SUBCLASS_OF, "D", "B"⟩, ⟨.SUBCLASS_OF, "D", "A"⟩,
        ⟨.MUTUALLY_EXCLUSIVE, "A", "B"⟩] ⟨.SUBCLASS_OF, "D", "B"⟩ defaultCtx).1 ≠ .NO :=
  ⟨TReach.step "D" ⟨.SUBCLASS_OF, "D", "A"⟩ TReach.refl
      (List.mem_cons_of_mem _ (List.mem_cons_self _ _)) rfl rfl,
    by decide, by decide⟩
